import Mathlib

/-!
Shallow embedding of `app.py` of gemini-anki-server: the text-cleaning
pipeline (`clean_text`, `should_delete_line`, `split_into_paragraphs`,
the paragraph pipeline of `fetch_dialogue_from_share`), the response
extractor `extract_json_from_text` (together with a model of `json.dumps`
and `json.loads` restricted to integer numerals), the serializer `to_tsv`,
the input-length guard of `call_deepseek_for_anki_from_text`, and the
`anki_cards` shape check of `download_tsv` / `download_tsv_text`.

Python strings are modelled as Lean `String` / `List Char`; Python
`str.strip()` is modelled over the ASCII whitespace characters
(space, tab, newline, carriage return, vertical tab, form feed);
case-insensitive regex matching is modelled by ASCII case folding.
Python exceptions are modelled with `Except` / `Option`.
-/

namespace AnkiServer

/-- ASCII whitespace, the characters stripped by Python `str.strip()`
(restricted to ASCII). -/
def pyIsSpace (c : Char) : Bool :=
  c = ' ' || c = '\t' || c = '\n' || c = '\r' || c = '\x0b' || c = '\x0c'

/-- Python `s.strip()` on a character list: drop leading and trailing
whitespace. -/
def pyStripL (l : List Char) : List Char :=
  ((l.dropWhile pyIsSpace).reverse.dropWhile pyIsSpace).reverse

/-- Python `s.strip()`. -/
def pyStrip (s : String) : String :=
  ⟨pyStripL s.data⟩

/-- ASCII lower-casing, modelling `re.IGNORECASE` comparison of the
ASCII-only patterns in `DELETE_LINE_PATTERNS`. -/
def lowerA (c : Char) : Char :=
  if 'A' ≤ c ∧ c ≤ 'Z' then Char.ofNat (c.toNat + 32) else c

/-- Case-insensitive equality of character lists (ASCII folding). -/
def ciEq (a b : List Char) : Bool :=
  a.map lowerA = b.map lowerA

/-- Test that `a` starts with `b`, case-insensitively. -/
def ciStartsWith : List Char → List Char → Bool
  | _, [] => true
  | [], _ :: _ => false
  | c :: cs, d :: ds => (lowerA c = lowerA d) && ciStartsWith cs ds

/-- Test that `b` occurs in `a` as a contiguous substring, case-insensitively. -/
def ciContains : List Char → List Char → Bool
  | l, pat =>
    match l with
    | [] => ciStartsWith [] pat
    | _ :: rest => ciStartsWith l pat || ciContains rest pat

/-- Python `s.replace("\r\n", "\n")`: one left-to-right pass replacing each
non-overlapping occurrence of CR LF by LF. -/
def replaceCRLF : List Char → List Char
  | [] => []
  | [c] => [c]
  | c :: d :: rest =>
    if c = '\r' then
      if d = '\n' then '\n' :: replaceCRLF rest
      else c :: replaceCRLF (d :: rest)
    else c :: replaceCRLF (d :: rest)

/-- Horizontal whitespace: space or tab, the class `[ \t]`. -/
def isHT (c : Char) : Bool := c = ' ' || c = '\t'

/-- The next character exists and is horizontal whitespace. -/
def headIsHT : List Char → Bool
  | [] => false
  | d :: _ => isHT d

/-- Single left-to-right pass of `re.sub(r"[ \t]{2,}", " ", s)`: inside
a run of two or more spaces/tabs, all characters but the last are
dropped and the last is replaced by a single space (`inRun` records that
the current character has a space/tab predecessor in the same run); a
lone space or tab is kept unchanged. -/
def collapseHWSGo (inRun : Bool) : List Char → List Char
  | [] => []
  | c :: rest =>
    if isHT c then
      if headIsHT rest then collapseHWSGo true rest
      else (if inRun then ' ' else c) :: collapseHWSGo false rest
    else c :: collapseHWSGo false rest

/-- Python `re.sub(r"[ \t]{2,}", " ", s)`: collapse every run of two or
more spaces/tabs into a single space; a lone space or tab is left
unchanged. -/
def collapseHWS (l : List Char) : List Char :=
  collapseHWSGo false l

/-- Single pass of `re.sub(r"\n{3,}", "\n\n", s)`: each maximal run of
newlines keeps its first `min(run length, 2)` newlines, which replaces
every run of three or more newlines by exactly two and leaves shorter
runs unchanged; `seen` counts the newlines already kept from the current
run. -/
def collapseNLGo (seen : Nat) : List Char → List Char
  | [] => []
  | c :: rest =>
    if c = '\n' then
      if 2 ≤ seen then collapseNLGo seen rest
      else '\n' :: collapseNLGo (seen + 1) rest
    else c :: collapseNLGo 0 rest

/-- Python `re.sub(r"\n{3,}", "\n\n", s)`: collapse every run of three
or more newlines into exactly two. -/
def collapseNL (l : List Char) : List Char :=
  collapseNLGo 0 l

/-- Body of `clean_text` from app.py on a character list: replace CR LF by LF,
collapse horizontal whitespace runs, collapse newline runs, strip. -/
def cleanTextL (l : List Char) : List Char :=
  pyStripL (collapseNL (collapseHWS (replaceCRLF l)))

/-- Function `clean_text(s)` from app.py. -/
def clean_text (s : String) : String :=
  ⟨cleanTextL s.data⟩

/-- Every carriage return in the list is immediately followed by a
newline (so every CR is part of a Windows CR LF line ending). -/
def crlfOnly : List Char → Bool
  | [] => true
  | c :: rest =>
    if c = '\r' then
      match rest with
      | [] => false
      | d :: rest2 => d = '\n' && crlfOnly rest2
    else crlfOnly rest

/-- One entry of `DELETE_LINE_PATTERNS`.  Every pattern in the table is
anchored `^...$`; it is either a literal (`exact`) or a literal prefix
followed by `.*`, optionally with a second literal followed by `.*`
(`wild p mid`, the shape `^p.*mid.*$`; `mid = ""` gives `^p.*$`).
Since `.` does not match a newline and the matched line is always
pre-stripped, `^p.*mid.*$` holds iff the line starts with `p` and the
remainder is newline-free and contains `mid` (case-insensitively). -/
inductive Pat
  | exact (s : String)
  | wild (p : String) (mid : String)

/-- Semantics of `re.match` of one anchored pattern against a (pre-stripped) line,
with `re.IGNORECASE`. -/
def matchPat (line : List Char) : Pat → Bool
  | .exact s => ciEq line s.data
  | .wild p mid =>
    ciStartsWith line p.data &&
      !(line.drop p.data.length).contains '\n' &&
      ciContains (line.drop p.data.length) mid.data

/-- Table `DELETE_LINE_PATTERNS` / `DELETE_RE` from app.py, pattern by pattern. -/
def DELETE_RE : List Pat :=
  [ .exact "About Gemini",
    .exact "Gemini App",
    .exact "Subscriptions",
    .exact "For Business",
    .exact "Opens in a new window",
    .exact "Laptop On Desk",
    .wild "https://gemini.google.com/share/" "",
    .wild "Created with" "",
    .wild "Published" "",
    .exact "Sign in",
    .exact "Before you continue to Google",
    .wild "We use cookies and data" "",
    .exact "Deliver and maintain Google services",
    .wild "Track outages" "",
    .wild "Measure audience engagement" "",
    .wild "If you choose to" "",
    .wild "Non-personalized content" "",
    .wild "Personalized content" "",
    .wild "Select " "privacy",
    .exact "Reject all",
    .exact "Accept all",
    .exact "More options",
    .exact "Privacy Policy",
    .exact "Terms of Service" ]

/-- Function `should_delete_line(line)` from app.py: strip, keep blank lines,
otherwise delete iff some table pattern matches. -/
def should_delete_line (line : String) : Bool :=
  let l := pyStripL line.data
  if l.isEmpty then false
  else DELETE_RE.any (fun p => matchPat l p)

/-- Python `"\n".join(lines)`. -/
def joinNL : List String → String
  | [] => ""
  | [s] => s
  | s :: rest => s ++ "\n" ++ joinNL rest

/-- The accumulating loop of `split_into_paragraphs`: `buf` is the list
of buffered non-blank lines, flushed (joined with newlines and stripped)
at each blank line and at end of input. -/
def sipGo (buf : List String) : List String → List String
  | [] => if buf.isEmpty then [] else [pyStrip (joinNL buf)]
  | line :: rest =>
    if pyStrip line = "" then
      if buf.isEmpty then sipGo [] rest
      else pyStrip (joinNL buf) :: sipGo [] rest
    else sipGo (buf ++ [line]) rest

/-- Function `split_into_paragraphs(lines)` from app.py (including the final
`[p for p in paras if p]` filter). -/
def split_into_paragraphs (lines : List String) : List String :=
  (sipGo [] lines).filter (fun p => p ≠ "")

/-- The maximal runs of the input separated at blank lines: blank lines
become run boundaries and are dropped, all other lines are kept in
order.  Groups produced by consecutive blank lines are empty lists. -/
def blankRuns : List String → List (List String)
  | [] => [[]]
  | l :: rest =>
    if pyStrip l = "" then [] :: blankRuns rest
    else
      match blankRuns rest with
      | [] => [[l]]
      | g :: gs => (l :: g) :: gs

/-- Stated from the claim's words, for comparison with
`split_into_paragraphs`: "exactly the maximal runs of non-blank lines,
each joined with a newline and trimmed, in input order". -/
def paragraphsSpec (lines : List String) : List String :=
  ((blankRuns lines).filter (fun g => !g.isEmpty)).map (fun g => pyStrip (joinNL g))

/-- The exact-duplicate filter at the end of `fetch_dialogue_from_share`
(`seen` set, first occurrence kept, order preserved). -/
def dedupF (seen : List String) : List String → List String
  | [] => []
  | p :: rest => if p ∈ seen then dedupF seen rest else p :: dedupF (p :: seen) rest

/-- Specification-side definition, written from the claim's words and
NOT from the source (to be compared with the source-side `dedupF`):
"first occurrence wins; relative order of surviving elements is
preserved" — keep the head of the list and drop every later duplicate
of it from the recursively deduplicated tail, so each element survives
exactly at the position of its first occurrence. -/
def firstOccurrences : List String → List String
  | [] => []
  | p :: rest => p :: (firstOccurrences rest).filter (fun q => q ≠ p)

/-- Python `s.split("\n")` on a character list. -/
def splitNLChars : List Char → List (List Char)
  | [] => [[]]
  | c :: rest =>
    if c = '\n' then [] :: splitNLChars rest
    else
      match splitNLChars rest with
      | [] => [[c]]
      | g :: gs => (c :: g) :: gs

/-- The per-line keep/strip/filter loop of `fetch_dialogue_from_share`:
each line of the cleaned text is stripped; blank lines are kept as `""`
markers, noise lines are dropped, other lines are kept stripped. -/
def keptLines (raw : String) : List String :=
  (splitNLChars (clean_text raw).data).filterMap (fun l =>
    let st : String := ⟨pyStripL l⟩
    if st = "" then some ""
    else if should_delete_line st then none
    else some st)

/-- The pure text pipeline of `fetch_dialogue_from_share` (everything
after the browser returns the raw page text): `clean_text`, per-line
strip/filter, `split_into_paragraphs`, exact dedup keeping first
occurrences. -/
def fetch_dialogue_pipeline (raw : String) : List String :=
  dedupF [] (split_into_paragraphs (keptLines raw))

/-- Outcome of the phase of `call_deepseek_for_anki_from_text` that runs
before the HTTP request is issued: the missing-key check, then the
length guard, then (only if both pass) the request is built with the
stripped text as prompt body. -/
inductive PreCall
  | configError
  | inputError
  | proceed (prompt : String)
deriving DecidableEq

/-- Function `call_deepseek_for_anki_from_text`, up to (but not including) the
external HTTP call: `if not DEEPSEEK_API_KEY: raise`, then
`raw_text = (raw_text or "").strip()`, then
`if len(raw_text) < 20: raise`. -/
def call_deepseek_from_text_pre (apiKey rawText : String) : PreCall :=
  if apiKey = "" then .configError
  else if (pyStrip rawText).length < 20 then .inputError
  else .proceed (pyStrip rawText)

/-- Number of non-whitespace characters of a string. -/
def countNonWs (s : String) : Nat :=
  (s.data.filter (fun c => !pyIsSpace c)).length

/-- A Python value as produced by `json.loads`: null, bool, number
(restricted to integers; floats are outside this model), string, list,
dict (modelled as an association list in insertion order). -/
inductive JVal
  | jnull
  | jbool (b : Bool)
  | jnum (n : Int)
  | jstr (s : String)
  | jarr (items : List JVal)
  | jobj (fields : List (String × JVal))

/-- Python truthiness of a `JVal`. -/
def truthy : JVal → Bool
  | .jnull => false
  | .jbool b => b
  | .jnum n => n ≠ 0
  | .jstr s => !s.isEmpty
  | .jarr items => !items.isEmpty
  | .jobj fields => !fields.isEmpty

/-- Python `dict.get` over an association list (later bindings shadow
earlier ones, as when a dict is built left to right). -/
def dictGet (fields : List (String × JVal)) (k : String) : Option JVal :=
  match fields with
  | [] => none
  | (k2, v) :: rest =>
    match dictGet rest k with
    | some w => some w
    | none => if k2 = k then some v else none

/-- The string payload of a string value (and `""` on any other
constructor, where it is never used). -/
def strVal : JVal → String
  | .jstr s => s
  | _ => ""

/-- Is the value a Python string? -/
def isStr : JVal → Bool
  | .jstr _ => true
  | _ => false

/-- Expression `(c.get(key) or "")` used as a string: a missing key or a falsy
value yields `""`; a truthy string yields itself; a truthy non-string
raises `AttributeError` at the following `.strip()` call (`.error ()`). -/
def pyOrEmptyStr : Option JVal → Except Unit String
  | none => .ok ""
  | some v =>
    if truthy v then
      if isStr v then .ok (strVal v) else .error ()
    else .ok ""

/-- Python `s.replace("\t", " ")`. -/
def replaceTab (s : String) : String :=
  ⟨s.data.map (fun c => if c = '\t' then ' ' else c)⟩

/-- The loop of `to_tsv`: skip non-dict entries, read and normalize the
two fields, skip blank or already-seen `english` values, emit
`english<TAB>note_cn` lines. -/
def toTsvLines (seen : List String) : List JVal → Except Unit (List String)
  | [] => .ok []
  | c :: rest =>
    match c with
    | .jobj fields =>
      match pyOrEmptyStr (dictGet fields "english"),
            pyOrEmptyStr (dictGet fields "note_cn") with
      | .ok eng0, .ok note0 =>
        let eng := replaceTab (pyStrip eng0)
        let note := replaceTab (pyStrip note0)
        if eng = "" then toTsvLines seen rest
        else if eng ∈ seen then toTsvLines seen rest
        else
          match toTsvLines (eng :: seen) rest with
          | .ok ls => .ok ((eng ++ "\t" ++ note) :: ls)
          | .error e => .error e
      | .error e, _ => .error e
      | .ok _, .error e => .error e
    | _ => toTsvLines seen rest

/-- Function `to_tsv(cards)` from app.py; `.error ()` is the `AttributeError`
raised on a truthy non-string `english`/`note_cn` value. -/
def to_tsv (cards : List JVal) : Except Unit String :=
  (toTsvLines [] cards).map joinNL

/-- Failures after the extractor inside `download_tsv` /
`download_tsv_text`: the `anki_cards is not a list` RuntimeError
(`shape`), or the AttributeError out of `to_tsv` (`attr`). -/
inductive PostErr
  | shape
  | attr
deriving DecidableEq

/-- The shared tail of `download_tsv` and `download_tsv_text` once
`extract_json_from_text` has produced the parsed dict `fields`:
`cards = result.get("anki_cards", [])`, the `isinstance(cards, list)`
check, then `to_tsv(cards)`. -/
def download_tsv_post (fields : List (String × JVal)) : Except PostErr String :=
  match (dictGet fields "anki_cards").getD (.jarr []) with
  | .jarr cards =>
    match to_tsv cards with
    | .ok s => .ok s
    | .error _ => .error .attr
  | _ => .error .shape

/-- Is the value a Python list? -/
def isArr : JVal → Bool
  | .jarr _ => true
  | _ => false

/-- Is the value a Python dict? -/
def isObj : JVal → Bool
  | .jobj _ => true
  | _ => false

/-- The decimal digit character for `d ≤ 9`. -/
def digitChar (d : Nat) : Char :=
  Char.ofNat (48 + d)

/-- Lower-case hexadecimal digit character for `d ≤ 15`, as emitted by
`json.dumps` in `\u00XX` escapes. -/
def hexDigChar (d : Nat) : Char :=
  if d < 10 then Char.ofNat (48 + d) else Char.ofNat (87 + d)

/-- Decimal digits of a natural number, most significant first. -/
def natDigits (n : Nat) : List Char :=
  if n < 10 then [digitChar n]
  else natDigits (n / 10) ++ [digitChar (n % 10)]
termination_by n
decreasing_by
  exact Nat.div_lt_self (by omega) (by omega)

/-- Decimal representation of an integer. -/
def intDigits (n : Int) : List Char :=
  if n < 0 then '-' :: natDigits (-n).toNat else natDigits n.toNat

/-- One character of a JSON string body as escaped by `json.dumps`
(non-ASCII characters above U+001F are emitted literally, the
`ensure_ascii=False` convention of the serializer modelled here). -/
def escChar (c : Char) : List Char :=
  if c = '"' then ['\\', '"']
  else if c = '\\' then ['\\', '\\']
  else if c = '\n' then ['\\', 'n']
  else if c = '\t' then ['\\', 't']
  else if c = '\r' then ['\\', 'r']
  else if c = '\x08' then ['\\', 'b']
  else if c = '\x0c' then ['\\', 'f']
  else if c.toNat < 32 then
    ['\\', 'u', '0', '0', hexDigChar (c.toNat / 16), hexDigChar (c.toNat % 16)]
  else [c]

/-- Escaped body of a JSON string. -/
def escStr : List Char → List Char
  | [] => []
  | c :: rest => escChar c ++ escStr rest

mutual

/-- JSON serialization of a value (compact separators `,` and `:`),
modelling `json.dumps` restricted to this value domain. -/
def serVal : JVal → List Char
  | .jnull => ['n', 'u', 'l', 'l']
  | .jbool true => ['t', 'r', 'u', 'e']
  | .jbool false => ['f', 'a', 'l', 's', 'e']
  | .jnum n => intDigits n
  | .jstr s => '"' :: (escStr s.data ++ ['"'])
  | .jarr [] => ['[', ']']
  | .jarr (x :: xs) => '[' :: (serVal x ++ serItems xs ++ [']'])
  | .jobj [] => ['{', '}']
  | .jobj (m :: ms) => '{' :: (serMember m ++ serMembers ms ++ ['}'])

/-- One `"key":value` member. -/
def serMember : String × JVal → List Char
  | (k, v) => '"' :: (escStr k.data ++ '"' :: ':' :: serVal v)

/-- Serialized `,value` continuations of a non-empty array. -/
def serItems : List JVal → List Char
  | [] => []
  | x :: xs => ',' :: (serVal x ++ serItems xs)

/-- Serialized `,"key":value` continuations of a non-empty object. -/
def serMembers : List (String × JVal) → List Char
  | [] => []
  | m :: ms => ',' :: (serMember m ++ serMembers ms)

end

/-- Python `json.dumps` as a string-valued function. -/
def serializeJson (v : JVal) : String :=
  ⟨serVal v⟩

/-- The whitespace skipped between JSON tokens by `json.loads`. -/
def jsonWs (c : Char) : Bool :=
  c = ' ' || c = '\t' || c = '\n' || c = '\r'

/-- Skip inter-token whitespace. -/
def skipWs (l : List Char) : List Char :=
  l.dropWhile jsonWs

/-- Value of a hexadecimal digit character. -/
def hexVal (c : Char) : Option Nat :=
  if '0' ≤ c ∧ c ≤ '9' then some (c.toNat - 48)
  else if 'a' ≤ c ∧ c ≤ 'f' then some (c.toNat - 87)
  else if 'A' ≤ c ∧ c ≤ 'F' then some (c.toNat - 55)
  else none

/-- JSON string body after the opening quote: unescape until the closing
quote, returning the decoded characters and the remaining input.  A
`\u` escape with four hex digits decodes a code point; any other
backslash escape outside the JSON table (or a truncated escape) fails,
as in `json.loads`. -/
def parseStrL : List Char → Option (List Char × List Char)
  | [] => none
  | '\\' :: 'u' :: h1 :: h2 :: h3 :: h4 :: rest =>
    (match hexVal h1, hexVal h2, hexVal h3, hexVal h4 with
     | some a, some b, some c3, some d =>
       (parseStrL rest).map
         (fun p => (Char.ofNat (4096 * a + 256 * b + 16 * c3 + d) :: p.1, p.2))
     | _, _, _, _ => none)
  | '\\' :: e :: rest =>
    if e = '"' then (parseStrL rest).map (fun p => ('"' :: p.1, p.2))
    else if e = '\\' then (parseStrL rest).map (fun p => ('\\' :: p.1, p.2))
    else if e = '/' then (parseStrL rest).map (fun p => ('/' :: p.1, p.2))
    else if e = 'n' then (parseStrL rest).map (fun p => ('\n' :: p.1, p.2))
    else if e = 't' then (parseStrL rest).map (fun p => ('\t' :: p.1, p.2))
    else if e = 'r' then (parseStrL rest).map (fun p => ('\r' :: p.1, p.2))
    else if e = 'b' then (parseStrL rest).map (fun p => ('\x08' :: p.1, p.2))
    else if e = 'f' then (parseStrL rest).map (fun p => ('\x0c' :: p.1, p.2))
    else none
  | c :: rest =>
    if c = '"' then some ([], rest)
    else if c = '\\' then none
    else (parseStrL rest).map (fun p => (c :: p.1, p.2))

/-- Numeric value of a digit list. -/
def digitsVal (l : List Char) : Nat :=
  l.foldl (fun a c => a * 10 + (c.toNat - 48)) 0

/-- An integer numeral at the head of the input (JSON numbers restricted
to integer literals in this model). -/
def parseNum : List Char → Option (JVal × List Char)
  | [] => none
  | c :: rest =>
    if c = '-' then
      let ds := rest.takeWhile Char.isDigit
      if ds.isEmpty then none
      else some (.jnum (-(digitsVal ds : Int)), rest.dropWhile Char.isDigit)
    else
      let ds := (c :: rest).takeWhile Char.isDigit
      if ds.isEmpty then none
      else some (.jnum (digitsVal ds), (c :: rest).dropWhile Char.isDigit)

mutual

/-- Recursive-descent JSON value, fuel-bounded; models the grammar
accepted by `json.loads` over the integer-numeral value domain. -/
def parseVal : Nat → List Char → Option (JVal × List Char)
  | 0, _ => none
  | fuel + 1, l =>
    match skipWs l with
    | [] => none
    | c :: rest =>
      if c = '"' then (parseStrL rest).map (fun p => (JVal.jstr ⟨p.1⟩, p.2))
      else if c = '{' then
        match skipWs rest with
        | '}' :: r2 => some (.jobj [], r2)
        | r2 => (parseMemberSeq fuel r2).map (fun p => (JVal.jobj p.1, p.2))
      else if c = '[' then
        match skipWs rest with
        | ']' :: r2 => some (.jarr [], r2)
        | r2 => (parseItemSeq fuel r2).map (fun p => (JVal.jarr p.1, p.2))
      else if c = 't' then
        match rest with
        | 'r' :: 'u' :: 'e' :: r2 => some (.jbool true, r2)
        | _ => none
      else if c = 'f' then
        match rest with
        | 'a' :: 'l' :: 's' :: 'e' :: r2 => some (.jbool false, r2)
        | _ => none
      else if c = 'n' then
        match rest with
        | 'u' :: 'l' :: 'l' :: r2 => some (.jnull, r2)
        | _ => none
      else if c = '-' || c.isDigit then parseNum (c :: rest)
      else none

/-- One or more `"key":value` members, consuming the closing `}`. -/
def parseMemberSeq : Nat → List Char → Option (List (String × JVal) × List Char)
  | 0, _ => none
  | fuel + 1, l =>
    match skipWs l with
    | '"' :: r =>
      match parseStrL r with
      | none => none
      | some (k, r2) =>
        match skipWs r2 with
        | ':' :: r3 =>
          match parseVal fuel r3 with
          | none => none
          | some (v, r4) =>
            match skipWs r4 with
            | ',' :: r5 => (parseMemberSeq fuel r5).map (fun p => ((⟨k⟩, v) :: p.1, p.2))
            | '}' :: r5 => some ([(⟨k⟩, v)], r5)
            | _ => none
        | _ => none
    | _ => none

/-- One or more array items, consuming the closing `]`. -/
def parseItemSeq : Nat → List Char → Option (List JVal × List Char)
  | 0, _ => none
  | fuel + 1, l =>
    match parseVal fuel l with
    | none => none
    | some (v, r) =>
      match skipWs r with
      | ',' :: r2 => (parseItemSeq fuel r2).map (fun p => (v :: p.1, p.2))
      | ']' :: r2 => some ([v], r2)
      | _ => none

end

/-- Python `json.loads(l)`: parse one value and require only whitespace after
it.  The fuel `l.length + 1` never starves, since every recursive
nesting step consumes at least one input character first. -/
def jsonParse (l : List Char) : Option JVal :=
  match parseVal (l.length + 1) l with
  | some (v, r) => if (skipWs r).isEmpty then some v else none
  | none => none

/-- Literal (case-sensitive) list prefix test. -/
def startsWithL : List Char → List Char → Bool
  | _, [] => true
  | [], _ :: _ => false
  | c :: cs, d :: ds => c = d && startsWithL cs ds

/-- Python `re.sub(r"^\s*```json\s*", "", t, flags=re.IGNORECASE)`: if the text
(after optional leading whitespace) starts with a ```` ```json ````
fence marker, remove it together with the surrounding whitespace. -/
def stripLeadJson (l : List Char) : List Char :=
  let l1 := l.dropWhile pyIsSpace
  if ciStartsWith l1 ['`', '`', '`', 'j', 's', 'o', 'n'] then
    (l1.drop 7).dropWhile pyIsSpace
  else l

/-- Python `re.sub(r"^\s*```\s*", "", t)`. -/
def stripLeadFence (l : List Char) : List Char :=
  let l1 := l.dropWhile pyIsSpace
  if startsWithL l1 ['`', '`', '`'] then (l1.drop 3).dropWhile pyIsSpace
  else l

/-- Python `re.sub(r"\s*```\s*$", "", t)` for inputs with no trailing
whitespace (always the case here: this sub runs on an already stripped
text whose start only may have been shortened), where the leftmost
match ending at the end of the string is exactly: optional whitespace,
three backticks, end. -/
def stripTrailFence (l : List Char) : List Char :=
  let r := l.reverse.dropWhile pyIsSpace
  if startsWithL r ['`', '`', '`'] then ((r.drop 3).dropWhile pyIsSpace).reverse
  else l

/-- The two failure modes of `extract_json_from_text`, both mapped to a
`RuntimeError` in app.py; each carries its diagnostic excerpt
(`t[:800]` resp. `json_text[:800]`). -/
inductive ExtractErr
  | noJson (excerpt : List Char)
  | parseFail (excerpt : List Char)
deriving DecidableEq

/-- Expressions `start = t.find("{")`, `end = t.rfind("}")`, the
`start == -1 or end == -1 or end <= start` check, and the slice
`t[start:end+1]`.  Dropping up to the first `{` and, from the rear,
up to the last `}` yields a non-empty list iff a `{` exists and a `}`
exists strictly after it (`{` and `}` are distinct, so `end == start`
is impossible). -/
def braceSlice (t : List Char) : Option (List Char) :=
  let a := t.dropWhile (fun c => c ≠ '{')
  let b := (a.reverse.dropWhile (fun c => c ≠ '}')).reverse
  if b.isEmpty then none else some b

/-- The trim + fence-marker stripping phase of `extract_json_from_text`,
the text in which the braces are then located. -/
def fenceProcessed (text : List Char) : List Char :=
  stripTrailFence (stripLeadFence (stripLeadJson (pyStripL text)))

/-- Body of `extract_json_from_text` from app.py on a character list: strip,
strip fence markers, locate the outermost braces, parse the slice.
It either fully succeeds or fails; there is no partial result. -/
def extractJsonL (text : List Char) : Except ExtractErr JVal :=
  let t := fenceProcessed text
  match braceSlice t with
  | none => .error (.noJson (t.take 800))
  | some slice =>
    match jsonParse slice with
    | some v => .ok v
    | none => .error (.parseFail (slice.take 800))

/-- Function `extract_json_from_text(text)` from app.py. -/
def extract_json_from_text (text : String) : Except ExtractErr JVal :=
  extractJsonL text.data

/-- A field value `to_tsv` survives: absent, falsy, or a string
(everything except truthy non-strings, on which Python raises
`AttributeError`). -/
def safeField : Option JVal → Bool
  | none => true
  | some w => !truthy w || isStr w

/-- A card record `to_tsv` can process without raising: any non-dict, or
a dict whose `english` and `note_cn` values are safe fields. -/
def safeCard : JVal → Bool
  | .jobj fields =>
    safeField (dictGet fields "english") && safeField (dictGet fields "note_cn")
  | _ => true

/-- The input does not begin with a decimal digit (so a numeral ending
right before it is parsed maximally). -/
def headNotDigit (l : List Char) : Prop :=
  ∀ c, l.head? = some c → c.isDigit = false

/-! ## Lemmas about stripping -/

theorem dropWhile_head_not {α} (p : α → Bool) :
    ∀ (l : List α) (c : α), (l.dropWhile p).head? = some c → p c = false := by
  intro l
  induction l with
  | nil => intro c h; simp [List.dropWhile] at h
  | cons a t ih =>
    intro c h
    by_cases ha : p a
    · rw [List.dropWhile_cons_of_pos ha] at h
      exact ih c h
    · rw [List.dropWhile_cons_of_neg ha, List.head?_cons] at h
      injection h with h2
      subst h2
      simpa using ha

theorem dropWhile_dropWhile {α} (p : α → Bool) (l : List α) :
    (l.dropWhile p).dropWhile p = l.dropWhile p := by
  cases h : l.dropWhile p with
  | nil => simp
  | cons c t =>
    have hc := dropWhile_head_not p l c (by rw [h]; rfl)
    rw [List.dropWhile_cons_of_neg (by simp [hc])]

theorem rstrip_decomp {α} (p : α → Bool) (l : List α) :
    ∃ u, l = (l.reverse.dropWhile p).reverse ++ u ∧ ∀ c ∈ u, p c = true := by
  refine ⟨(l.reverse.takeWhile p).reverse, ?_, ?_⟩
  · conv_lhs => rw [← l.reverse_reverse, ← List.takeWhile_append_dropWhile (p := p) (l := l.reverse)]
    rw [List.reverse_append]
  · intro c hc
    rw [List.mem_reverse] at hc
    exact List.mem_takeWhile_imp hc

theorem pyStripL_decomp (l : List Char) :
    ∃ u v, l = u ++ pyStripL l ++ v ∧
      (∀ c ∈ u, pyIsSpace c = true) ∧ (∀ c ∈ v, pyIsSpace c = true) := by
  obtain ⟨v, hv, hvs⟩ := rstrip_decomp pyIsSpace (l.dropWhile pyIsSpace)
  refine ⟨l.takeWhile pyIsSpace, v, ?_, ?_, hvs⟩
  · conv_lhs => rw [← List.takeWhile_append_dropWhile (p := pyIsSpace) (l := l)]
    rw [pyStripL, List.append_assoc, ← hv]
  · intro c hc
    exact List.mem_takeWhile_imp hc

theorem pyStripL_head_not (l : List Char) (c : Char) (t : List Char)
    (h : pyStripL l = c :: t) : pyIsSpace c = false := by
  obtain ⟨u, hu, _⟩ := rstrip_decomp pyIsSpace (l.dropWhile pyIsSpace)
  rw [pyStripL] at h
  apply dropWhile_head_not pyIsSpace l c
  rw [hu, h]
  rfl

theorem pyStripL_idem (l : List Char) : pyStripL (pyStripL l) = pyStripL l := by
  have h1 : (pyStripL l).dropWhile pyIsSpace = pyStripL l := by
    cases h : pyStripL l with
    | nil => simp
    | cons c t =>
      have hc := pyStripL_head_not l c t h
      rw [List.dropWhile_cons_of_neg (by simp [hc])]
  have h2 : (pyStripL l).reverse = (l.dropWhile pyIsSpace).reverse.dropWhile pyIsSpace := by
    rw [pyStripL, List.reverse_reverse]
  rw [pyStripL, h1, h2, dropWhile_dropWhile, ← h2, List.reverse_reverse]

theorem mem_pyStripL (l : List Char) (c : Char) (h : c ∈ pyStripL l) : c ∈ l := by
  obtain ⟨u, v, hl, _, _⟩ := pyStripL_decomp l
  rw [hl]
  simp [h]

theorem pyStripL_eq_nil_iff (l : List Char) :
    pyStripL l = [] ↔ ∀ c ∈ l, pyIsSpace c = true := by
  constructor
  · intro h c hc
    obtain ⟨u, v, hl, hu, hv⟩ := pyStripL_decomp l
    rw [hl, h] at hc
    simp at hc
    rcases hc with h1 | h1
    · exact hu c h1
    · exact hv c h1
  · intro h
    have : l.dropWhile pyIsSpace = [] := List.dropWhile_eq_nil_iff.mpr h
    rw [pyStripL, this]
    rfl

theorem pyStrip_data (s : String) : (pyStrip s).data = pyStripL s.data := rfl

/-! ## C10: the line filter strips its own argument -/

/-- C10 (confirmed): `should_delete_line` is invariant under surrounding
whitespace: for every string `s`, `should_delete_line s` equals
`should_delete_line` of the trimmed string, because the predicate strips
its argument itself and stripping is idempotent. -/
theorem should_delete_line_strip_invariant (s : String) :
    should_delete_line s = should_delete_line (pyStrip s) := by
  simp only [should_delete_line, pyStrip_data, pyStripL_idem]

/-! ## C7: full-line, case-insensitive noise matching -/

/-- C7 (confirmed): a line is discarded iff its trimmed form is non-blank
and matches some entry of the fixed pattern table as an anchored
full-line, case-insensitive match; in particular "Accept all" is
discarded, the longer line merely containing it is kept, and a blank
line is never discarded. -/
theorem noise_table_full_line_match :
    should_delete_line "Accept all" = true ∧
    should_delete_line "I will not Accept all terms" = false ∧
    (∀ s : String, pyStrip s = "" → should_delete_line s = false) ∧
    (∀ s : String, should_delete_line s = true ↔
      pyStripL s.data ≠ [] ∧ ∃ p ∈ DELETE_RE, matchPat (pyStripL s.data) p = true) := by
  refine ⟨by decide, by decide, ?_, ?_⟩
  · intro s h
    have hd : pyStripL s.data = [] := congrArg String.data h
    simp [should_delete_line, hd]
  · intro s
    simp only [should_delete_line]
    by_cases h : (pyStripL s.data).isEmpty
    · rw [if_pos h]
      simp only [List.isEmpty_iff] at h
      simp [h]
    · rw [if_neg h]
      simp only [List.isEmpty_iff] at h
      simp [List.any_eq_true, h]

/-- Closed instance of C7: a whitespace-only line is never deleted. -/
theorem noise_table_full_line_match_witness :
    should_delete_line "   " = false :=
  noise_table_full_line_match.2.2.1 "   " (by decide)

/-! ## C4: carriage-return handling of the normalizer -/

theorem no_cr_replaceCRLF :
    ∀ l, crlfOnly l = true → '\r' ∉ replaceCRLF l := by
  intro l
  induction l using replaceCRLF.induct with
  | case1 =>
    intro _
    simp [replaceCRLF]
  | case2 c =>
    intro h
    by_cases hc : c = '\r'
    · subst hc
      simp [crlfOnly] at h
    · simp [replaceCRLF]
      intro he
      exact hc he.symm
  | case3 rest ih =>
    intro h
    simp [crlfOnly] at h
    rw [replaceCRLF, if_pos rfl, if_pos rfl]
    intro hm
    rcases List.mem_cons.mp hm with h1 | h1
    · exact absurd h1.symm (by decide)
    · exact ih h h1
  | case4 d rest hd ih =>
    intro h
    simp [crlfOnly, hd] at h
  | case5 c d rest hc ih =>
    intro h
    simp only [crlfOnly, if_neg hc] at h
    rw [replaceCRLF, if_neg hc]
    intro hm
    rcases List.mem_cons.mp hm with h1 | h1
    · exact hc h1.symm
    · exact ih h h1

theorem mem_collapseHWSGo :
    ∀ (l : List Char) (inRun : Bool) (c : Char),
      c ∈ collapseHWSGo inRun l → c ∈ l ∨ c = ' ' := by
  intro l
  induction l with
  | nil =>
    intro inRun c h
    simp [collapseHWSGo] at h
  | cons a rest ih =>
    intro inRun c h
    rw [collapseHWSGo] at h
    by_cases h1 : isHT a
    · rw [if_pos h1] at h
      by_cases h2 : headIsHT rest
      · rw [if_pos h2] at h
        rcases ih true c h with h3 | h3
        · left; exact List.mem_cons_of_mem a h3
        · right; exact h3
      · rw [if_neg h2] at h
        rcases List.mem_cons.mp h with h3 | h3
        · cases inRun with
          | true => right; simpa using h3
          | false => left; simp at h3; simp [h3]
        · rcases ih false c h3 with h4 | h4
          · left; exact List.mem_cons_of_mem a h4
          · right; exact h4
    · rw [if_neg h1] at h
      rcases List.mem_cons.mp h with h3 | h3
      · left; simp [h3]
      · rcases ih false c h3 with h4 | h4
        · left; exact List.mem_cons_of_mem a h4
        · right; exact h4

theorem mem_collapseNLGo :
    ∀ (l : List Char) (seen : Nat) (c : Char),
      c ∈ collapseNLGo seen l → c ∈ l := by
  intro l
  induction l with
  | nil =>
    intro seen c h
    simp [collapseNLGo] at h
  | cons a rest ih =>
    intro seen c h
    rw [collapseNLGo] at h
    by_cases h1 : a = '\n'
    · rw [if_pos h1] at h
      by_cases h2 : 2 ≤ seen
      · rw [if_pos h2] at h
        exact List.mem_cons_of_mem a (ih seen c h)
      · rw [if_neg h2] at h
        rcases List.mem_cons.mp h with h3 | h3
        · subst h1; simp [h3]
        · exact List.mem_cons_of_mem a (ih (seen + 1) c h3)
    · rw [if_neg h1] at h
      rcases List.mem_cons.mp h with h3 | h3
      · simp [h3]
      · exact List.mem_cons_of_mem a (ih 0 c h3)

/-- C4 counterexample: on the input "a\rb" (a lone carriage return not
followed by a newline) `clean_text` returns the input unchanged, so a
carriage return remains in the output, contradicting the claim that no
carriage return ever remains. -/
theorem clean_text_lone_cr_counterexample :
    clean_text "a\rb" = "a\rb" ∧ '\r' ∈ (clean_text "a\rb").data := by
  constructor
  · rfl
  · decide

/-- C4 (corrected): `clean_text` removes carriage returns only as parts
of CR LF pairs: if every carriage return of the input is immediately
followed by a newline, then no carriage return remains in the output.
(A lone CR, or the first CR of "\r\r\n", survives.) -/
theorem clean_text_no_cr_of_crlf (s : String) (h : crlfOnly s.data = true) :
    '\r' ∉ (clean_text s).data := by
  intro hm
  have h1 : '\r' ∈ cleanTextL s.data := hm
  rw [cleanTextL] at h1
  have h2 := mem_pyStripL _ _ h1
  rcases mem_collapseNLGo _ _ _ h2 with h3
  rcases mem_collapseHWSGo _ _ _ h3 with h4 | h4
  · exact no_cr_replaceCRLF s.data h h4
  · exact absurd h4 (by decide)

/-- Closed instance of C4's corrected statement at a CR-LF input. -/
theorem clean_text_no_cr_of_crlf_witness :
    '\r' ∉ (clean_text "a\r\nb").data :=
  clean_text_no_cr_of_crlf "a\r\nb" (by decide)

/-! ## C8: the paragraph segmenter emits the maximal non-blank runs -/

theorem blankRuns_ne_nil : ∀ lines, blankRuns lines ≠ [] := by
  intro lines
  cases lines with
  | nil => simp [blankRuns]
  | cons l rest =>
    rw [blankRuns]
    by_cases h : pyStrip l = ""
    · rw [if_pos h]; simp
    · rw [if_neg h]
      cases hb : blankRuns rest with
      | nil => simp
      | cons g gs => simp

theorem sipGo_eq :
    ∀ (lines : List String) (buf g : List String) (gs : List (List String)),
      blankRuns lines = g :: gs →
      sipGo buf lines =
        (((buf ++ g) :: gs).filter (fun r => !r.isEmpty)).map
          (fun r => pyStrip (joinNL r)) := by
  intro lines
  induction lines with
  | nil =>
    intro buf g gs h
    simp only [blankRuns] at h
    injection h with h1 h2
    subst h1; subst h2
    rw [List.append_nil]
    by_cases hb : buf.isEmpty
    · rw [sipGo, if_pos hb]
      simp [hb]
    · rw [sipGo, if_neg hb]
      have hfalse : buf.isEmpty = false := by simpa using hb
      rw [List.filter_cons]
      simp [hfalse]
  | cons l rest ih =>
    intro buf g gs h
    rw [blankRuns] at h
    by_cases hl : pyStrip l = ""
    · rw [if_pos hl] at h
      injection h with h1 h2
      subst h1
      cases hb : blankRuns rest with
      | nil => exact absurd hb (blankRuns_ne_nil rest)
      | cons g2 gs2 =>
        rw [sipGo, if_pos hl]
        by_cases hbuf : buf.isEmpty
        · rw [if_pos hbuf]
          have hbe : buf = [] := List.isEmpty_iff.mp hbuf
          subst hbe
          rw [ih [] g2 gs2 hb]
          simp only [List.nil_append]
          rw [← h2, hb]
          simp
        · rw [if_neg hbuf]
          rw [ih [] g2 gs2 hb]
          simp only [List.nil_append, List.append_nil]
          rw [← h2, hb]
          have hfalse : buf.isEmpty = false := by simpa using hbuf
          simp [List.filter_cons, hfalse]
    · rw [if_neg hl] at h
      cases hb : blankRuns rest with
      | nil => exact absurd hb (blankRuns_ne_nil rest)
      | cons g2 gs2 =>
        rw [hb] at h
        injection h with h1 h2
        subst h2
        rw [sipGo, if_neg hl]
        rw [ih (buf ++ [l]) g2 gs2 hb]
        rw [List.append_assoc, List.singleton_append, h1]

theorem blankRuns_mem_nonblank :
    ∀ (lines : List String) (g : List String) (l : String),
      g ∈ blankRuns lines → l ∈ g → pyStrip l ≠ "" := by
  intro lines
  induction lines with
  | nil =>
    intro g l hg hl
    simp [blankRuns] at hg
    subst hg
    simp at hl
  | cons a rest ih =>
    intro g l hg hl
    rw [blankRuns] at hg
    by_cases ha : pyStrip a = ""
    · rw [if_pos ha] at hg
      rcases List.mem_cons.mp hg with h1 | h1
      · subst h1; simp at hl
      · exact ih g l h1 hl
    · rw [if_neg ha] at hg
      cases hb : blankRuns rest with
      | nil => exact absurd hb (blankRuns_ne_nil rest)
      | cons g2 gs2 =>
        rw [hb] at hg
        rcases List.mem_cons.mp hg with h1 | h1
        · subst h1
          rcases List.mem_cons.mp hl with h2 | h2
          · subst h2; exact ha
          · exact ih g2 l (by rw [hb]; exact List.mem_cons_self g2 gs2) h2
        · exact ih g l (by rw [hb]; exact List.mem_cons_of_mem g2 h1) hl

theorem strip_ne_nil_of_mem_nonws (s : String) (c : Char)
    (hm : c ∈ s.data) (hw : pyIsSpace c = false) : pyStrip s ≠ "" := by
  intro h
  have hd : pyStripL s.data = [] := congrArg String.data h
  have := (pyStripL_eq_nil_iff s.data).mp hd c hm
  rw [hw] at this
  exact Bool.false_ne_true this

theorem exists_nonws_of_strip_ne (s : String) (h : pyStrip s ≠ "") :
    ∃ c ∈ s.data, pyIsSpace c = false := by
  by_contra hc
  push_neg at hc
  apply h
  have hall : ∀ c ∈ s.data, pyIsSpace c = true := by
    intro c hcm
    have := hc c hcm
    simpa using this
  have : pyStripL s.data = [] := (pyStripL_eq_nil_iff s.data).mpr hall
  show pyStrip s = ""
  rw [pyStrip, this]

theorem mem_data_joinNL_head (s : String) (rest : List String) (c : Char)
    (hc : c ∈ s.data) : c ∈ (joinNL (s :: rest)).data := by
  cases rest with
  | nil => simpa [joinNL] using hc
  | cons t ts =>
    show c ∈ (s ++ "\n" ++ joinNL (t :: ts)).data
    simp [hc]

theorem paragraphsSpec_ne_empty (lines : List String) :
    ∀ p ∈ paragraphsSpec lines, p ≠ "" := by
  intro p hp
  rw [paragraphsSpec] at hp
  rcases List.mem_map.mp hp with ⟨g, hg, hmap⟩
  rcases List.mem_filter.mp hg with ⟨hgmem, hgne⟩
  cases g with
  | nil => simp at hgne
  | cons s rest =>
    subst hmap
    have hs : pyStrip s ≠ "" :=
      blankRuns_mem_nonblank lines _ s hgmem (List.mem_cons_self _ _)
    obtain ⟨c, hcm, hcw⟩ := exists_nonws_of_strip_ne s hs
    exact strip_ne_nil_of_mem_nonws _ c (mem_data_joinNL_head s rest c hcm) hcw

/-- C8 (confirmed): `split_into_paragraphs` emits exactly the maximal
runs of non-blank lines, each joined with a newline and trimmed, in
input order (consecutive blank lines produce no empty paragraphs and
the final buffer is flushed), and the concrete example of the spec
holds. -/
theorem split_into_paragraphs_maximal_runs :
    (∀ lines, split_into_paragraphs lines = paragraphsSpec lines) ∧
    split_into_paragraphs ["Hello", "world", "", "", "Second", "para"] =
      ["Hello\nworld", "Second\npara"] := by
  constructor
  · intro lines
    rw [split_into_paragraphs]
    cases hb : blankRuns lines with
    | nil => exact absurd hb (blankRuns_ne_nil lines)
    | cons g gs =>
      rw [sipGo_eq lines [] g gs hb, List.nil_append]
      have hrw : ((g :: gs).filter (fun r => !r.isEmpty)).map
          (fun r => pyStrip (joinNL r)) = paragraphsSpec lines := by
        rw [paragraphsSpec, hb]
      rw [hrw]
      apply List.filter_eq_self.mpr
      intro p hp
      have := paragraphsSpec_ne_empty lines p hp
      simpa using this
  · decide

/-! ## C9: invariants of the dialogue list -/

theorem dedupF_sublist : ∀ (l seen : List String), List.Sublist (dedupF seen l) l := by
  intro l
  induction l with
  | nil => intro seen; simp [dedupF]
  | cons p rest ih =>
    intro seen
    rw [dedupF]
    by_cases h : p ∈ seen
    · rw [if_pos h]; exact (ih seen).cons p
    · rw [if_neg h]; exact (ih (p :: seen)).cons₂ p

theorem mem_dedupF :
    ∀ (l seen : List String) (x : String), x ∈ dedupF seen l ↔ x ∈ l ∧ x ∉ seen := by
  intro l
  induction l with
  | nil => intro seen x; simp [dedupF]
  | cons p rest ih =>
    intro seen x
    rw [dedupF]
    by_cases h : p ∈ seen
    · rw [if_pos h, ih]
      constructor
      · rintro ⟨h1, h2⟩
        exact ⟨List.mem_cons_of_mem p h1, h2⟩
      · rintro ⟨h1, h2⟩
        rcases List.mem_cons.mp h1 with h3 | h3
        · subst h3; exact absurd h h2
        · exact ⟨h3, h2⟩
    · rw [if_neg h]
      constructor
      · intro hx
        rcases List.mem_cons.mp hx with h3 | h3
        · subst h3; exact ⟨List.mem_cons_self _ _, h⟩
        · obtain ⟨h4, h5⟩ := (ih (p :: seen) x).mp h3
          exact ⟨List.mem_cons_of_mem p h4, fun hs => h5 (List.mem_cons_of_mem p hs)⟩
      · rintro ⟨h1, h2⟩
        rcases List.mem_cons.mp h1 with h3 | h3
        · subst h3; exact List.mem_cons_self _ _
        · by_cases h4 : x = p
          · subst h4; exact List.mem_cons_self _ _
          · apply List.mem_cons_of_mem
            refine (ih (p :: seen) x).mpr ⟨h3, ?_⟩
            intro hs
            rcases List.mem_cons.mp hs with h5 | h5
            · exact h4 h5
            · exact h2 h5

theorem nodup_dedupF : ∀ (l seen : List String), (dedupF seen l).Nodup := by
  intro l
  induction l with
  | nil => intro seen; simp [dedupF]
  | cons p rest ih =>
    intro seen
    rw [dedupF]
    by_cases h : p ∈ seen
    · rw [if_pos h]; exact ih seen
    · rw [if_neg h]
      refine List.nodup_cons.mpr ⟨?_, ih (p :: seen)⟩
      intro hmem
      exact ((mem_dedupF rest (p :: seen) p).mp hmem).2 (List.mem_cons_self _ _)

theorem dedupF_eq_firstOccurrences_filter :
    ∀ (l seen : List String),
      dedupF seen l = (firstOccurrences l).filter (fun q => decide (q ∉ seen)) := by
  intro l
  induction l with
  | nil => intro seen; rfl
  | cons p rest ih =>
    intro seen
    rw [dedupF, show firstOccurrences (p :: rest) =
        p :: (firstOccurrences rest).filter (fun q => decide (q ≠ p)) from rfl,
      List.filter_cons]
    by_cases h : p ∈ seen
    · rw [if_pos h, ih seen, if_neg (by simp [h]), List.filter_filter]
      apply List.filter_congr
      intro a _
      by_cases h1 : a = p
      · subst h1; simp [h]
      · by_cases h2 : a ∈ seen
        · simp [h1, h2]
        · simp [h1, h2]
    · rw [if_neg h, ih (p :: seen), if_pos (by simp [h]), List.filter_filter]
      congr 1
      apply List.filter_congr
      intro a _
      by_cases h1 : a = p
      · subst h1; simp
      · by_cases h2 : a ∈ seen
        · simp [h1, h2]
        · simp [h1, h2]

theorem dedupF_nil_eq_firstOccurrences (l : List String) :
    dedupF [] l = firstOccurrences l := by
  rw [dedupF_eq_firstOccurrences_filter]
  apply List.filter_eq_self.mpr
  intro a _
  simp

/-- C9 (confirmed): the dialogue list built by the pipeline of
`fetch_dialogue_from_share` contains no empty string, has no two equal
elements, is a subsequence of the segmented paragraphs containing
exactly their distinct elements, and equals the specification-side
`firstOccurrences` of the segmented paragraphs — each element kept at
the position of its first occurrence with later duplicates dropped, so
elements appear in first-occurrence order. -/
theorem fetch_dialogue_invariants (raw : String) :
    (fetch_dialogue_pipeline raw).Nodup ∧
    "" ∉ fetch_dialogue_pipeline raw ∧
    List.Sublist (fetch_dialogue_pipeline raw) (split_into_paragraphs (keptLines raw)) ∧
    (∀ p, p ∈ fetch_dialogue_pipeline raw ↔
      p ∈ split_into_paragraphs (keptLines raw)) ∧
    fetch_dialogue_pipeline raw =
      firstOccurrences (split_into_paragraphs (keptLines raw)) := by
  refine ⟨nodup_dedupF _ _, ?_, dedupF_sublist _ _, ?_,
    dedupF_nil_eq_firstOccurrences _⟩
  · intro hmem
    rw [fetch_dialogue_pipeline] at hmem
    have h1 := ((mem_dedupF _ _ _).mp hmem).1
    rw [split_into_paragraphs] at h1
    have := (List.mem_filter.mp h1).2
    simp at this
  · intro p
    rw [fetch_dialogue_pipeline, mem_dedupF]
    simp

/-! ## C1: totality of the card serializer -/

/-- C1 counterexample: a mapping whose `english` value is the (truthy)
number 5 makes `to_tsv` raise an `AttributeError` at `.strip()`, so
`to_tsv` is not total on lists of mappings with non-string values. -/
theorem to_tsv_numeric_english_counterexample :
    to_tsv [JVal.jobj [("english", JVal.jnum 5)]] = .error () := rfl

theorem pyOrEmptyStr_ok_of_safeField (v : Option JVal) (h : safeField v = true) :
    ∃ s, pyOrEmptyStr v = .ok s := by
  cases v with
  | none => exact ⟨"", rfl⟩
  | some w =>
    rw [safeField] at h
    by_cases ht : truthy w = true
    · have hs : isStr w = true := by
        rw [ht] at h
        simpa using h
      exact ⟨strVal w, by rw [pyOrEmptyStr, if_pos ht, if_pos hs]⟩
    · exact ⟨"", by rw [pyOrEmptyStr, if_neg ht]⟩

/-- C1 (corrected): `to_tsv` never raises and silently skips
non-conforming records, provided every mapping's `english` and `note_cn`
values are absent, falsy, or strings; a truthy non-string value makes it
raise (see the counterexample).  Non-mapping entries are always skipped
silently. -/
theorem to_tsv_safe_spec :
    (∀ cards : List JVal, (∀ c ∈ cards, safeCard c = true) →
      ∃ s, to_tsv cards = .ok s) ∧
    (∀ (v : JVal) (cards : List JVal), isObj v = false →
      to_tsv (v :: cards) = to_tsv cards) := by
  constructor
  · have key : ∀ (cards : List JVal) (seen : List String),
        (∀ c ∈ cards, safeCard c = true) → ∃ ls, toTsvLines seen cards = .ok ls := by
      intro cards
      induction cards with
      | nil => intro seen _; exact ⟨[], rfl⟩
      | cons c rest ih =>
        intro seen h
        have hc := h c (List.mem_cons_self _ _)
        have hrest : ∀ x ∈ rest, safeCard x = true :=
          fun x hx => h x (List.mem_cons_of_mem c hx)
        cases c with
        | jobj fields =>
          rw [safeCard, Bool.and_eq_true] at hc
          obtain ⟨s1, hs1⟩ := pyOrEmptyStr_ok_of_safeField _ hc.1
          obtain ⟨s2, hs2⟩ := pyOrEmptyStr_ok_of_safeField _ hc.2
          rw [toTsvLines, hs1, hs2]
          dsimp only
          by_cases h1 : replaceTab (pyStrip s1) = ""
          · rw [if_pos h1]
            exact ih seen hrest
          · rw [if_neg h1]
            by_cases h2 : replaceTab (pyStrip s1) ∈ seen
            · rw [if_pos h2]
              exact ih seen hrest
            · rw [if_neg h2]
              obtain ⟨ls, hls⟩ := ih (replaceTab (pyStrip s1) :: seen) hrest
              rw [hls]
              exact ⟨_, rfl⟩
        | jnull => exact ih seen hrest
        | jbool b => exact ih seen hrest
        | jnum n => exact ih seen hrest
        | jstr s => exact ih seen hrest
        | jarr xs => exact ih seen hrest
    intro cards h
    obtain ⟨ls, hls⟩ := key cards [] h
    exact ⟨joinNL ls, by rw [to_tsv, hls]; rfl⟩
  · intro v cards hv
    cases v with
    | jobj fields => simp [isObj] at hv
    | jnull => rfl
    | jbool b => rfl
    | jnum n => rfl
    | jstr s => rfl
    | jarr xs => rfl

/-- Closed instance of C1's corrected statement: a safe card list
serializes, and a non-mapping entry is skipped. -/
theorem to_tsv_safe_spec_witness :
    (∃ s, to_tsv [JVal.jobj [("english", JVal.jstr "Hi")]] = .ok s) ∧
    to_tsv [JVal.jnum 7] = to_tsv [] :=
  ⟨to_tsv_safe_spec.1 _ (by decide), to_tsv_safe_spec.2 (JVal.jnum 7) [] (by decide)⟩

/-! ## C2: the minimum-length guard of paste-and-build -/

/-- C2 counterexample: the input "a" + 18 spaces + "b" has only 2
non-whitespace characters but trimmed length 20, and the guard does not
reject it — the code tests the trimmed total length, not the number of
non-whitespace characters. -/
theorem guard_counts_trimmed_length_counterexample :
    countNonWs "a                  b" < 20 ∧
    call_deepseek_from_text_pre "k" "a                  b" ≠ .inputError := by
  decide

/-- C2 (corrected): with the API key configured, paste-and-build fails
with `InputError` before any HTTP call iff the trimmed text has total
length below 20 (not: fewer than 20 non-whitespace characters); in
particular any input with at least 20 non-whitespace characters
proceeds to the request. -/
theorem call_deepseek_guard (apiKey raw : String) (h : apiKey ≠ "") :
    (call_deepseek_from_text_pre apiKey raw = .inputError ↔
      (pyStrip raw).length < 20) ∧
    (20 ≤ countNonWs raw →
      call_deepseek_from_text_pre apiKey raw = .proceed (pyStrip raw)) := by
  have hlen : countNonWs raw ≤ (pyStrip raw).length := by
    obtain ⟨u, v, hl, hu, hv⟩ := pyStripL_decomp raw.data
    rw [countNonWs]
    conv_lhs => rw [hl]
    rw [List.filter_append, List.filter_append, List.length_append, List.length_append]
    have hu0 : (u.filter (fun c => !pyIsSpace c)).length = 0 := by
      rw [List.length_eq_zero]
      rw [List.filter_eq_nil_iff]
      intro c hc
      simp [hu c hc]
    have hv0 : (v.filter (fun c => !pyIsSpace c)).length = 0 := by
      rw [List.length_eq_zero]
      rw [List.filter_eq_nil_iff]
      intro c hc
      simp [hv c hc]
    have hmid := List.length_filter_le (fun c => !pyIsSpace c) (pyStripL raw.data)
    have hlen2 : (pyStrip raw).length = (pyStripL raw.data).length := rfl
    omega
  constructor
  · rw [call_deepseek_from_text_pre, if_neg h]
    constructor
    · intro heq
      by_cases hg : (pyStrip raw).length < 20
      · exact hg
      · rw [if_neg hg] at heq
        exact absurd heq (by simp)
    · intro hg
      rw [if_pos hg]
  · intro hcount
    rw [call_deepseek_from_text_pre, if_neg h, if_neg (by omega)]

/-- Closed instance of C2's corrected statement: a short input is
rejected by the guard. -/
theorem call_deepseek_guard_witness :
    call_deepseek_from_text_pre "k" "hi" = .inputError :=
  (call_deepseek_guard "k" "hi" (by decide)).1.mpr (by decide)

/-! ## C3: the anki_cards shape check -/

/-- C3 counterexample: when the parsed object lacks the `anki_cards`
field entirely, no ShapeError is raised — the code defaults to the empty
list and produces the empty TSV document. -/
theorem anki_cards_missing_counterexample :
    download_tsv_post [] = .ok "" ∧ download_tsv_post [] ≠ .error .shape := by
  refine ⟨rfl, ?_⟩
  intro h
  exact Except.noConfusion h

/-- C3 (corrected): the request fails with a ShapeError iff `anki_cards`
is present and is not a list; a present list never raises a ShapeError,
and an absent field silently yields the empty TSV document instead of an
error. -/
theorem download_tsv_shape_check (fields : List (String × JVal)) :
    (download_tsv_post fields = .error .shape ↔
      ∃ v, dictGet fields "anki_cards" = some v ∧ isArr v = false) ∧
    (dictGet fields "anki_cards" = none → download_tsv_post fields = .ok "") := by
  cases hg : dictGet fields "anki_cards" with
  | none =>
    have hok : download_tsv_post fields = .ok "" := by
      rw [download_tsv_post, hg]
      rfl
    refine ⟨?_, fun _ => hok⟩
    rw [hok]
    constructor
    · intro hcontra
      exact absurd hcontra (by simp)
    · rintro ⟨v, hv, _⟩
      exact absurd hv (by simp)
  | some v =>
    cases v with
    | jarr cards =>
      have hbody : download_tsv_post fields =
          (match to_tsv cards with
            | .ok s => .ok s
            | .error _ => .error .attr) := by
        rw [download_tsv_post, hg]
        rfl
      refine ⟨?_, fun hnone => absurd hnone (by simp)⟩
      constructor
      · intro hcontra
        rw [hbody] at hcontra
        cases ht : to_tsv cards with
        | ok s => rw [ht] at hcontra; exact absurd hcontra (by simp)
        | error e => rw [ht] at hcontra; exact absurd hcontra (by simp)
      · rintro ⟨v2, hv2, hv3⟩
        injection hv2 with hv4
        subst hv4
        simp [isArr] at hv3
    | jnull =>
      have hbody : download_tsv_post fields = .error .shape := by
        rw [download_tsv_post, hg]
        rfl
      exact ⟨⟨fun _ => ⟨.jnull, rfl, rfl⟩, fun _ => hbody⟩,
        fun hnone => absurd hnone (by simp)⟩
    | jbool b =>
      have hbody : download_tsv_post fields = .error .shape := by
        rw [download_tsv_post, hg]
        rfl
      exact ⟨⟨fun _ => ⟨.jbool b, rfl, rfl⟩, fun _ => hbody⟩,
        fun hnone => absurd hnone (by simp)⟩
    | jnum n =>
      have hbody : download_tsv_post fields = .error .shape := by
        rw [download_tsv_post, hg]
        rfl
      exact ⟨⟨fun _ => ⟨.jnum n, rfl, rfl⟩, fun _ => hbody⟩,
        fun hnone => absurd hnone (by simp)⟩
    | jstr s =>
      have hbody : download_tsv_post fields = .error .shape := by
        rw [download_tsv_post, hg]
        rfl
      exact ⟨⟨fun _ => ⟨.jstr s, rfl, rfl⟩, fun _ => hbody⟩,
        fun hnone => absurd hnone (by simp)⟩
    | jobj fs =>
      have hbody : download_tsv_post fields = .error .shape := by
        rw [download_tsv_post, hg]
        rfl
      exact ⟨⟨fun _ => ⟨.jobj fs, rfl, rfl⟩, fun _ => hbody⟩,
        fun hnone => absurd hnone (by simp)⟩

/-- Closed instance of C3's corrected statement: a present non-list
`anki_cards` raises the ShapeError. -/
theorem download_tsv_shape_check_witness :
    download_tsv_post [("anki_cards", JVal.jnum 3)] = .error .shape :=
  (download_tsv_shape_check _).1.mpr ⟨JVal.jnum 3, rfl, rfl⟩

/-! ## C6: failure modes of the response extractor -/

theorem mem_stripLeadJson (l : List Char) (c : Char) (h : c ∈ stripLeadJson l) :
    c ∈ l := by
  simp only [stripLeadJson] at h
  split at h
  · have h1 := List.dropWhile_subset _ h
    have h2 := List.drop_subset _ _ h1
    exact List.dropWhile_subset _ h2
  · exact h

theorem mem_stripLeadFence (l : List Char) (c : Char) (h : c ∈ stripLeadFence l) :
    c ∈ l := by
  simp only [stripLeadFence] at h
  split at h
  · have h1 := List.dropWhile_subset _ h
    have h2 := List.drop_subset _ _ h1
    exact List.dropWhile_subset _ h2
  · exact h

theorem mem_stripTrailFence (l : List Char) (c : Char) (h : c ∈ stripTrailFence l) :
    c ∈ l := by
  simp only [stripTrailFence] at h
  split at h
  · rw [List.mem_reverse] at h
    have h1 := List.dropWhile_subset _ h
    have h2 := List.drop_subset _ _ h1
    have h3 := List.dropWhile_subset _ h2
    rw [List.mem_reverse] at h3
    exact h3
  · exact h

theorem mem_fenceProcessed (text : List Char) (c : Char)
    (h : c ∈ fenceProcessed text) : c ∈ text := by
  rw [fenceProcessed] at h
  exact mem_pyStripL _ _ (mem_stripLeadJson _ _ (mem_stripLeadFence _ _
    (mem_stripTrailFence _ _ h)))

theorem braceSlice_eq_none_of_no_open (t : List Char) (h : '{' ∉ t) :
    braceSlice t = none := by
  have ha : t.dropWhile (fun c => c ≠ '{') = [] := by
    rw [List.dropWhile_eq_nil_iff]
    intro x hx
    exact decide_eq_true (fun he => h (he ▸ hx))
  simp only [braceSlice]
  rw [ha]
  simp

theorem braceSlice_eq_none_of_no_close (t : List Char)
    (h : '}' ∉ t.dropWhile (fun c => c ≠ '{')) : braceSlice t = none := by
  have hb : (t.dropWhile (fun c => c ≠ '{')).reverse.dropWhile (fun c => c ≠ '}') = [] := by
    rw [List.dropWhile_eq_nil_iff]
    intro x hx
    rw [List.mem_reverse] at hx
    exact decide_eq_true (fun he => h (he ▸ hx))
  simp only [braceSlice]
  rw [hb]
  simp

theorem extract_noJson_of_braceSlice_none (text : List Char)
    (h : braceSlice (fenceProcessed text) = none) :
    extractJsonL text = .error (.noJson ((fenceProcessed text).take 800)) := by
  rw [extractJsonL]
  simp only [h]

theorem extract_parseFail_of_jsonParse_none (text slice : List Char)
    (h1 : braceSlice (fenceProcessed text) = some slice)
    (h2 : jsonParse slice = none) :
    extractJsonL text = .error (.parseFail (slice.take 800)) := by
  rw [extractJsonL]
  simp only [h1, h2]

/-- C6 (confirmed): whenever the fence-stripped text has no opening
brace, or no closing brace after the first opening brace (which covers
"no closing brace at all" and "last closing brace before the first
opening brace"), the extractor fails with the no-JSON ParseError whose
excerpt has at most 800 characters; whenever the brace slice exists but
is not parseable JSON, it fails with the parse ParseError, excerpt again
at most 800 characters; an input without an opening brace anywhere
fails; and the two concrete inputs of the spec fail.  By construction
(`Except`) there is no partial result. -/
theorem extract_json_failure_spec :
    (∀ text : String,
      ('{' ∉ fenceProcessed text.data ∨
        '}' ∉ (fenceProcessed text.data).dropWhile (fun c => c ≠ '{')) →
      ∃ e, extract_json_from_text text = .error (.noJson e) ∧ e.length ≤ 800) ∧
    (∀ (text : String) (slice : List Char),
      braceSlice (fenceProcessed text.data) = some slice →
      jsonParse slice = none →
      ∃ e, extract_json_from_text text = .error (.parseFail e) ∧ e.length ≤ 800) ∧
    (∀ text : String, '{' ∉ text.data →
      ∃ e, extract_json_from_text text = .error (.noJson e)) ∧
    extract_json_from_text "\x7bnot json" = .error (.noJson "\x7bnot json".data) ∧
    extract_json_from_text "no braces here" = .error (.noJson "no braces here".data) := by
  have hmain : ∀ text : String,
      ('{' ∉ fenceProcessed text.data ∨
        '}' ∉ (fenceProcessed text.data).dropWhile (fun c => c ≠ '{')) →
      ∃ e, extract_json_from_text text = .error (.noJson e) ∧ e.length ≤ 800 := by
    intro text h
    have hnone : braceSlice (fenceProcessed text.data) = none := by
      rcases h with h | h
      · exact braceSlice_eq_none_of_no_open _ h
      · exact braceSlice_eq_none_of_no_close _ h
    exact ⟨_, extract_noJson_of_braceSlice_none text.data hnone,
      List.length_take_le _ _⟩
  refine ⟨hmain, ?_, ?_, ?_, ?_⟩
  · intro text slice h1 h2
    exact ⟨_, extract_parseFail_of_jsonParse_none text.data slice h1 h2,
      List.length_take_le _ _⟩
  · intro text h
    have hsub : '{' ∉ fenceProcessed text.data :=
      fun hc => h (mem_fenceProcessed _ _ hc)
    exact ⟨_, extract_noJson_of_braceSlice_none text.data
      (braceSlice_eq_none_of_no_open _ hsub)⟩
  · rfl
  · rfl

/-- Closed instance of C6: a prose-only response fails with the no-JSON
ParseError. -/
theorem extract_json_failure_spec_witness :
    ∃ e, extract_json_from_text "xyz" = .error (.noJson e) :=
  extract_json_failure_spec.2.2.1 "xyz" (by decide)


/-! ## C5 groundwork: numerals -/

theorem skipWs_cons_not (c : Char) (l : List Char) (h : jsonWs c = false) :
    skipWs (c :: l) = c :: l := by
  rw [skipWs, List.dropWhile_cons_of_neg (by simp [h])]

theorem digitChar_facts :
    ∀ m, m < 10 → (digitChar m).isDigit = true ∧ (digitChar m).toNat = 48 + m := by
  decide

theorem hexVal_hexDigChar : ∀ a, a < 16 → hexVal (hexDigChar a) = some a := by
  decide

theorem natDigits_digits : ∀ (n : Nat) (c : Char), c ∈ natDigits n → c.isDigit = true := by
  intro n
  induction n using Nat.strong_induction_on with
  | _ n ih =>
    intro c hc
    rw [natDigits] at hc
    by_cases h : n < 10
    · rw [if_pos h] at hc
      simp at hc
      subst hc
      exact (digitChar_facts n h).1
    · rw [if_neg h] at hc
      rcases List.mem_append.mp hc with h1 | h1
      · exact ih (n / 10) (Nat.div_lt_self (by omega) (by omega)) c h1
      · simp at h1
        subst h1
        exact (digitChar_facts (n % 10) (Nat.mod_lt n (by omega))).1

theorem natDigits_ne_nil (n : Nat) : natDigits n ≠ [] := by
  rw [natDigits]
  by_cases h : n < 10
  · rw [if_pos h]; simp
  · rw [if_neg h]; simp

theorem digitsVal_append1 (l : List Char) (c : Char) :
    digitsVal (l ++ [c]) = 10 * digitsVal l + (c.toNat - 48) := by
  rw [digitsVal, digitsVal, List.foldl_append, List.foldl_cons, List.foldl_nil]
  omega

theorem digitsVal_natDigits : ∀ n : Nat, digitsVal (natDigits n) = n := by
  intro n
  induction n using Nat.strong_induction_on with
  | _ n ih =>
    rw [natDigits]
    by_cases h : n < 10
    · rw [if_pos h]
      have h1 := (digitChar_facts n h).2
      rw [digitsVal, List.foldl_cons, List.foldl_nil]
      omega
    · rw [if_neg h, digitsVal_append1,
        ih (n / 10) (Nat.div_lt_self (by omega) (by omega))]
      have h1 := (digitChar_facts (n % 10) (Nat.mod_lt n (by omega))).2
      omega

theorem isDigit_not_special (c : Char) (h : c.isDigit = true) :
    c ≠ '-' ∧ c ≠ '"' ∧ c ≠ '\x7b' ∧ c ≠ '[' ∧ c ≠ 't' ∧ c ≠ 'f' ∧ c ≠ 'n' ∧
      c ≠ ']' ∧ jsonWs c = false := by
  have hne : ∀ d : Char, d.isDigit = false → c ≠ d := by
    intro d hd he
    rw [he, hd] at h
    exact Bool.false_ne_true h
  refine ⟨hne '-' (by decide), hne '"' (by decide), hne '\x7b' (by decide),
    hne '[' (by decide), hne 't' (by decide), hne 'f' (by decide),
    hne 'n' (by decide), hne ']' (by decide), ?_⟩
  have h1 := hne ' ' (by decide)
  have h2 := hne '\t' (by decide)
  have h3 := hne '\n' (by decide)
  have h4 := hne '\r' (by decide)
  simp [jsonWs, h1, h2, h3, h4]

theorem takeWhile_dropWhile_append {p : Char → Bool} :
    ∀ (A B : List Char), (∀ c ∈ A, p c = true) →
      (∀ c, B.head? = some c → p c = false) →
      (A ++ B).takeWhile p = A ∧ (A ++ B).dropWhile p = B := by
  intro A
  induction A with
  | nil =>
    intro B _ hB
    constructor
    · cases B with
      | nil => rfl
      | cons b bs =>
        have hb := hB b rfl
        simp [List.takeWhile_cons, hb]
    · cases B with
      | nil => rfl
      | cons b bs =>
        have hb := hB b rfl
        simp [List.dropWhile_cons, hb]
  | cons a A ih =>
    intro B hA hB
    have ha : p a = true := hA a (List.mem_cons_self _ _)
    have hrest : ∀ c ∈ A, p c = true := fun c hc => hA c (List.mem_cons_of_mem _ hc)
    obtain ⟨h1, h2⟩ := ih B hrest hB
    constructor
    · simp [List.takeWhile_cons, ha, h1]
    · simp [List.dropWhile_cons, ha, h2]

theorem parseNum_intDigits (n : Int) (rest : List Char)
    (hrest : headNotDigit rest) :
    parseNum (intDigits n ++ rest) = some (.jnum n, rest) := by
  by_cases hn : n < 0
  · rw [intDigits, if_pos hn, List.cons_append, parseNum, if_pos rfl]
    obtain ⟨ht, hd⟩ := takeWhile_dropWhile_append (natDigits (-n).toNat) rest
      (natDigits_digits _) hrest
    rw [ht, hd]
    have hne : (natDigits (-n).toNat).isEmpty = false := by
      cases hx : natDigits (-n).toNat with
      | nil => exact absurd hx (natDigits_ne_nil _)
      | cons a b => rfl
    rw [if_neg (by simp [hne])]
    rw [digitsVal_natDigits]
    have hval : (-((Int.toNat (-n) : Nat) : Int)) = n := by omega
    rw [hval]
  · rw [intDigits, if_neg hn]
    cases hnd : natDigits n.toNat with
    | nil => exact absurd hnd (natDigits_ne_nil _)
    | cons c t =>
      have hcd : c.isDigit = true :=
        natDigits_digits _ c (by rw [hnd]; exact List.mem_cons_self _ _)
      obtain ⟨hminus, _, _, _, _, _, _, _, _⟩ := isDigit_not_special c hcd
      rw [List.cons_append, parseNum, if_neg hminus, ← List.cons_append, ← hnd]
      obtain ⟨ht, hd⟩ := takeWhile_dropWhile_append (natDigits n.toNat) rest
        (natDigits_digits _) hrest
      rw [ht, hd]
      have hne : (natDigits n.toNat).isEmpty = false := by
        cases hx : natDigits n.toNat with
        | nil => exact absurd hx (natDigits_ne_nil _)
        | cons a b => rfl
      rw [if_neg (by simp [hne])]
      rw [digitsVal_natDigits]
      have hval : ((Int.toNat n : Nat) : Int) = n := by omega
      rw [hval]

/-! ## C5 groundwork: string escaping round trip -/

theorem parseStrL_cons_plain (c : Char) (X : List Char) (h1 : c ≠ '"') (h2 : c ≠ '\\') :
    parseStrL (c :: X) = (parseStrL X).map (fun p => (c :: p.1, p.2)) := by
  rw [parseStrL, if_neg h1, if_neg h2]
  · intro _ _ _ _ _ hc _
    exact h2 hc
  · intro _ _ hc _
    exact h2 hc

theorem parseStrL_escStr :
    ∀ (cl rest : List Char), parseStrL (escStr cl ++ '"' :: rest) = some (cl, rest) := by
  intro cl
  induction cl with
  | nil =>
    intro rest
    rfl
  | cons c cl ih =>
    intro rest
    rw [escStr, List.append_assoc]
    by_cases h1 : c = '"'
    · subst h1
      rw [show escChar '"' = ['\\', '"'] from rfl]
      simp only [List.cons_append, List.nil_append]
      show (parseStrL (escStr cl ++ '"' :: rest)).map
          (fun (p : List Char × List Char) => ('"' :: p.1, p.2)) = _
      rw [ih]
      rfl
    by_cases h2 : c = '\\'
    · subst h2
      rw [show escChar '\\' = ['\\', '\\'] from rfl]
      simp only [List.cons_append, List.nil_append]
      show (parseStrL (escStr cl ++ '"' :: rest)).map
          (fun (p : List Char × List Char) => ('\\' :: p.1, p.2)) = _
      rw [ih]
      rfl
    by_cases h3 : c = '\n'
    · subst h3
      rw [show escChar '\n' = ['\\', 'n'] from rfl]
      simp only [List.cons_append, List.nil_append]
      show (parseStrL (escStr cl ++ '"' :: rest)).map
          (fun (p : List Char × List Char) => ('\n' :: p.1, p.2)) = _
      rw [ih]
      rfl
    by_cases h4 : c = '\t'
    · subst h4
      rw [show escChar '\t' = ['\\', 't'] from rfl]
      simp only [List.cons_append, List.nil_append]
      show (parseStrL (escStr cl ++ '"' :: rest)).map
          (fun (p : List Char × List Char) => ('\t' :: p.1, p.2)) = _
      rw [ih]
      rfl
    by_cases h5 : c = '\r'
    · subst h5
      rw [show escChar '\r' = ['\\', 'r'] from rfl]
      simp only [List.cons_append, List.nil_append]
      show (parseStrL (escStr cl ++ '"' :: rest)).map
          (fun (p : List Char × List Char) => ('\r' :: p.1, p.2)) = _
      rw [ih]
      rfl
    by_cases h6 : c = '\x08'
    · subst h6
      rw [show escChar '\x08' = ['\\', 'b'] from rfl]
      simp only [List.cons_append, List.nil_append]
      show (parseStrL (escStr cl ++ '"' :: rest)).map
          (fun (p : List Char × List Char) => ('\x08' :: p.1, p.2)) = _
      rw [ih]
      rfl
    by_cases h7 : c = '\x0c'
    · subst h7
      rw [show escChar '\x0c' = ['\\', 'f'] from rfl]
      simp only [List.cons_append, List.nil_append]
      show (parseStrL (escStr cl ++ '"' :: rest)).map
          (fun (p : List Char × List Char) => ('\x0c' :: p.1, p.2)) = _
      rw [ih]
      rfl
    by_cases h8 : c.toNat < 32
    · have he : escChar c =
          ['\\', 'u', '0', '0', hexDigChar (c.toNat / 16), hexDigChar (c.toNat % 16)] := by
        rw [escChar, if_neg h1, if_neg h2, if_neg h3, if_neg h4, if_neg h5,
          if_neg h6, if_neg h7, if_pos h8]
      rw [he]
      simp only [List.cons_append, List.nil_append]
      show (match hexVal '0', hexVal '0', hexVal (hexDigChar (c.toNat / 16)),
              hexVal (hexDigChar (c.toNat % 16)) with
            | some a, some b, some c3, some d =>
              (parseStrL (escStr cl ++ '"' :: rest)).map
                (fun (p : List Char × List Char) =>
                  (Char.ofNat (4096 * a + 256 * b + 16 * c3 + d) :: p.1, p.2))
            | _, _, _, _ => none) = _
      rw [show hexVal '0' = some 0 from rfl,
        hexVal_hexDigChar (c.toNat / 16) (by omega),
        hexVal_hexDigChar (c.toNat % 16) (by omega)]
      show (parseStrL (escStr cl ++ '"' :: rest)).map
          (fun (p : List Char × List Char) =>
            (Char.ofNat (4096 * 0 + 256 * 0 + 16 * (c.toNat / 16) + c.toNat % 16)
              :: p.1, p.2)) = _
      rw [ih]
      have harith : 4096 * 0 + 256 * 0 + 16 * (c.toNat / 16) + c.toNat % 16 = c.toNat := by
        omega
      rw [harith, Char.ofNat_toNat]
      rfl
    · have he : escChar c = [c] := by
        rw [escChar, if_neg h1, if_neg h2, if_neg h3, if_neg h4, if_neg h5,
          if_neg h6, if_neg h7, if_neg h8]
      rw [he, List.singleton_append, parseStrL_cons_plain c _ h1 h2, ih]
      rfl


/-! ## C5 groundwork: shape of serialized values -/

theorem serVal_head (v : JVal) :
    ∃ c t, serVal v = c :: t ∧ jsonWs c = false ∧ c ≠ ']' := by
  cases v with
  | jnull => exact ⟨'n', ['u', 'l', 'l'], rfl, by decide, by decide⟩
  | jbool b =>
    cases b with
    | true => exact ⟨'t', ['r', 'u', 'e'], rfl, by decide, by decide⟩
    | false => exact ⟨'f', ['a', 'l', 's', 'e'], rfl, by decide, by decide⟩
  | jnum n =>
    by_cases hn : n < 0
    · exact ⟨'-', natDigits (-n).toNat,
        by rw [show serVal (.jnum n) = intDigits n from rfl, intDigits, if_pos hn],
        by decide, by decide⟩
    · cases hnd : natDigits n.toNat with
      | nil => exact absurd hnd (natDigits_ne_nil _)
      | cons c t =>
        have hcd : c.isDigit = true :=
          natDigits_digits _ c (by rw [hnd]; exact List.mem_cons_self _ _)
        obtain ⟨_, _, _, _, _, _, _, hrb, hws⟩ := isDigit_not_special c hcd
        exact ⟨c, t,
          by rw [show serVal (.jnum n) = intDigits n from rfl, intDigits, if_neg hn, hnd],
          hws, hrb⟩
  | jstr s => exact ⟨'"', escStr s.data ++ ['"'], rfl, by decide, by decide⟩
  | jarr xs =>
    cases xs with
    | nil => exact ⟨'[', [']'], rfl, by decide, by decide⟩
    | cons x xs2 =>
      exact ⟨'[', serVal x ++ serItems xs2 ++ [']'], rfl, by decide, by decide⟩
  | jobj ms =>
    cases ms with
    | nil => exact ⟨'\x7b', ['\x7d'], rfl, by decide, by decide⟩
    | cons m ms2 =>
      exact ⟨'\x7b', serMember m ++ serMembers ms2 ++ ['\x7d'], rfl, by decide, by decide⟩

theorem serVal_ne_nil (v : JVal) : serVal v ≠ [] := by
  obtain ⟨c, t, h, _, _⟩ := serVal_head v
  rw [h]
  simp

theorem serVal_length_pos (v : JVal) : 0 < (serVal v).length := by
  obtain ⟨c, t, h, _, _⟩ := serVal_head v
  rw [h]
  simp

theorem serObj_last (ms : List (String × JVal)) :
    ∃ B, serVal (.jobj ms) = B ++ ['\x7d'] := by
  cases ms with
  | nil => exact ⟨['\x7b'], rfl⟩
  | cons m ms2 => exact ⟨'\x7b' :: (serMember m ++ serMembers ms2), rfl⟩

theorem headNotDigit_nil : headNotDigit [] := by
  intro c h
  simp at h

theorem headNotDigit_serItems (xs : List JVal) (rest : List Char) :
    headNotDigit (serItems xs ++ ']' :: rest) := by
  cases xs with
  | nil =>
    intro c h
    rw [show serItems ([] : List JVal) ++ ']' :: rest = ']' :: rest from rfl,
      List.head?_cons] at h
    injection h with h2
    subst h2
    decide
  | cons x xs2 =>
    intro c h
    rw [show serItems (x :: xs2) ++ ']' :: rest =
        ',' :: (serVal x ++ serItems xs2 ++ ']' :: rest) from rfl,
      List.head?_cons] at h
    injection h with h2
    subst h2
    decide

theorem headNotDigit_serMembers (ms : List (String × JVal)) (rest : List Char) :
    headNotDigit (serMembers ms ++ '\x7d' :: rest) := by
  cases ms with
  | nil =>
    intro c h
    rw [show serMembers ([] : List (String × JVal)) ++ '\x7d' :: rest =
        '\x7d' :: rest from rfl, List.head?_cons] at h
    injection h with h2
    subst h2
    decide
  | cons m ms2 =>
    intro c h
    rw [show serMembers (m :: ms2) ++ '\x7d' :: rest =
        ',' :: (serMember m ++ serMembers ms2 ++ '\x7d' :: rest) from rfl,
      List.head?_cons] at h
    injection h with h2
    subst h2
    decide

theorem length_serVal_obj (m : String × JVal) (ms : List (String × JVal)) :
    (serVal (.jobj (m :: ms))).length = (serMember m ++ serMembers ms).length + 2 := by
  rw [show serVal (.jobj (m :: ms)) =
      '\x7b' :: (serMember m ++ serMembers ms ++ ['\x7d']) from rfl]
  simp [List.length_append]
  omega

theorem length_serVal_arr (x : JVal) (xs : List JVal) :
    (serVal (.jarr (x :: xs))).length = (serVal x ++ serItems xs).length + 2 := by
  rw [show serVal (.jarr (x :: xs)) = '[' :: (serVal x ++ serItems xs ++ [']']) from rfl]
  simp [List.length_append]
  omega

theorem length_serMember (k : String) (v : JVal) :
    (serMember (k, v)).length = (escStr k.data).length + (serVal v).length + 3 := by
  rw [show serMember (k, v) = '"' :: (escStr k.data ++ '"' :: ':' :: serVal v) from rfl]
  simp [List.length_append]
  omega

theorem length_serMembers_cons (m : String × JVal) (ms : List (String × JVal)) :
    (serMembers (m :: ms)).length = (serMember m ++ serMembers ms).length + 1 := by
  rw [show serMembers (m :: ms) = ',' :: (serMember m ++ serMembers ms) from rfl]
  simp

theorem length_serItems_cons (x : JVal) (xs : List JVal) :
    (serItems (x :: xs)).length = (serVal x ++ serItems xs).length + 1 := by
  rw [show serItems (x :: xs) = ',' :: (serVal x ++ serItems xs) from rfl]
  simp

/-! ## C5: the parser inverts the serializer -/

theorem parse_ser_all : ∀ fuel : Nat,
    (∀ (v : JVal) (rest : List Char), (serVal v).length < fuel → headNotDigit rest →
      parseVal fuel (serVal v ++ rest) = some (v, rest)) ∧
    (∀ (k : String) (v : JVal) (ms : List (String × JVal)) (rest : List Char),
      (serMember (k, v) ++ serMembers ms).length + 1 < fuel →
      parseMemberSeq fuel (serMember (k, v) ++ serMembers ms ++ '\x7d' :: rest) =
        some ((k, v) :: ms, rest)) ∧
    (∀ (x : JVal) (xs : List JVal) (rest : List Char),
      (serVal x ++ serItems xs).length + 1 < fuel →
      parseItemSeq fuel (serVal x ++ serItems xs ++ ']' :: rest) =
        some (x :: xs, rest)) := by
  intro fuel
  induction fuel with
  | zero =>
    exact ⟨fun v rest h _ => absurd h (by omega),
      fun k v ms rest h => absurd h (by omega),
      fun x xs rest h => absurd h (by omega)⟩
  | succ f ih =>
    obtain ⟨ihV, ihM, ihI⟩ := ih
    refine ⟨?_, ?_, ?_⟩
    · intro v rest hlen hrest
      cases v with
      | jnull => rfl
      | jbool b => cases b <;> rfl
      | jstr s =>
        rw [show serVal (.jstr s) = '"' :: (escStr s.data ++ ['"']) from rfl]
        simp only [List.cons_append, List.append_assoc, List.nil_append]
        show (parseStrL (escStr s.data ++ '"' :: rest)).map
            (fun (p : List Char × List Char) => (JVal.jstr (String.mk p.1), p.2)) = _
        rw [parseStrL_escStr]
        rfl
      | jnum n =>
        rw [show serVal (.jnum n) = intDigits n from rfl]
        by_cases hn : n < 0
        · rw [intDigits, if_pos hn]
          show parseNum (('-' :: natDigits (-n).toNat) ++ rest) = some (.jnum n, rest)
          rw [show ('-' :: natDigits (-n).toNat) = intDigits n from
            by rw [intDigits, if_pos hn]]
          exact parseNum_intDigits n rest hrest
        · rw [intDigits, if_neg hn]
          cases hnd : natDigits n.toNat with
          | nil => exact absurd hnd (natDigits_ne_nil _)
          | cons c t =>
            have hcd : c.isDigit = true :=
              natDigits_digits _ c (by rw [hnd]; exact List.mem_cons_self _ _)
            obtain ⟨hm, hq, hob, hsb, ht', hf', hn', hrb, hws⟩ :=
              isDigit_not_special c hcd
            rw [List.cons_append, parseVal, skipWs_cons_not _ _ hws]
            split
            · rename_i heq
              exact absurd heq (by simp)
            · rename_i c2 r2 heq
              injection heq with he1 he2
              subst he1
              subst he2
              rw [if_neg hq, if_neg hob, if_neg hsb, if_neg ht', if_neg hf',
                if_neg hn', if_pos (by simp [hcd])]
              rw [← List.cons_append, ← hnd]
              rw [show natDigits n.toNat = intDigits n from by rw [intDigits, if_neg hn]]
              exact parseNum_intDigits n rest hrest
      | jarr xs =>
        cases xs with
        | nil => rfl
        | cons x xs2 =>
          obtain ⟨c, t, hx, hws, hne⟩ := serVal_head x
          have hU : (serVal x ++ serItems xs2).length + 1 < f := by
            rw [length_serVal_arr] at hlen
            omega
          rw [show serVal (.jarr (x :: xs2)) =
              '[' :: (serVal x ++ serItems xs2 ++ [']']) from rfl]
          simp only [List.cons_append, List.append_assoc, List.nil_append]
          show (match skipWs (serVal x ++ (serItems xs2 ++ ']' :: rest)) with
                | ']' :: r2 => some (JVal.jarr [], r2)
                | r2 => (parseItemSeq f r2).map
                    (fun (p : List JVal × List Char) => (JVal.jarr p.1, p.2))) = _
          rw [hx, List.cons_append, skipWs_cons_not _ _ hws]
          split
          · rename_i heq
            exact absurd (List.head_eq_of_cons_eq heq.symm).symm hne
          · rw [← List.cons_append, ← hx, ← List.append_assoc]
            rw [ihI x xs2 rest hU]
            rfl
      | jobj ms =>
        cases ms with
        | nil => rfl
        | cons m ms2 =>
          obtain ⟨k, v⟩ := m
          have hT : (serMember (k, v) ++ serMembers ms2).length + 1 < f := by
            rw [length_serVal_obj] at hlen
            omega
          rw [show serVal (.jobj ((k, v) :: ms2)) =
              '\x7b' :: (serMember (k, v) ++ serMembers ms2 ++ ['\x7d']) from rfl]
          simp only [List.cons_append, List.append_assoc, List.nil_append]
          show (parseMemberSeq f (serMember (k, v) ++ (serMembers ms2 ++ '\x7d' :: rest))).map
              (fun (p : List (String × JVal) × List Char) => (JVal.jobj p.1, p.2)) = _
          rw [← List.append_assoc, ihM k v ms2 rest hT]
          rfl
    · intro k v ms rest hlen
      have hv : (serVal v).length < f := by
        rw [List.length_append, length_serMember] at hlen
        omega
      rw [show serMember (k, v) = '"' :: (escStr k.data ++ '"' :: ':' :: serVal v) from rfl]
      simp only [List.cons_append, List.append_assoc, List.nil_append]
      show (match parseStrL (escStr k.data ++
              ('"' :: (':' :: (serVal v ++ (serMembers ms ++ '\x7d' :: rest))))) with
            | none => none
            | some (k2, r2) =>
              match skipWs r2 with
              | ':' :: r3 =>
                match parseVal f r3 with
                | none => none
                | some (v2, r4) =>
                  match skipWs r4 with
                  | ',' :: r5 => (parseMemberSeq f r5).map
                      (fun (p : List (String × JVal) × List Char) =>
                        ((String.mk k2, v2) :: p.1, p.2))
                  | '\x7d' :: r5 => some ([(String.mk k2, v2)], r5)
                  | _ => none
              | _ => none) = _
      rw [parseStrL_escStr k.data (':' :: (serVal v ++ (serMembers ms ++ '\x7d' :: rest)))]
      show (match parseVal f (serVal v ++ (serMembers ms ++ '\x7d' :: rest)) with
            | none => none
            | some (v2, r4) =>
              match skipWs r4 with
              | ',' :: r5 => (parseMemberSeq f r5).map
                  (fun (p : List (String × JVal) × List Char) =>
                    ((String.mk k.data, v2) :: p.1, p.2))
              | '\x7d' :: r5 => some ([(String.mk k.data, v2)], r5)
              | _ => none) = _
      rw [ihV v (serMembers ms ++ '\x7d' :: rest) hv (headNotDigit_serMembers ms rest)]
      cases ms with
      | nil => rfl
      | cons m2 ms2 =>
        obtain ⟨k2, v2⟩ := m2
        have hT2 : (serMember (k2, v2) ++ serMembers ms2).length + 1 < f := by
          rw [List.length_append, length_serMembers_cons, length_serMember] at hlen
          have hp := serVal_length_pos v
          omega
        show (parseMemberSeq f (serMember (k2, v2) ++ serMembers ms2 ++ '\x7d' :: rest)).map
            (fun (p : List (String × JVal) × List Char) =>
              ((String.mk k.data, v) :: p.1, p.2)) = _
        rw [ihM k2 v2 ms2 rest hT2]
        rfl
    · intro x xs rest hlen
      have hx : (serVal x).length < f := by
        rw [List.length_append] at hlen
        omega
      show (match parseVal f (serVal x ++ serItems xs ++ ']' :: rest) with
            | none => none
            | some (v, r) =>
              match skipWs r with
              | ',' :: r2 => (parseItemSeq f r2).map
                  (fun (p : List JVal × List Char) => (v :: p.1, p.2))
              | ']' :: r2 => some ([v], r2)
              | _ => none) = _
      rw [List.append_assoc]
      rw [ihV x (serItems xs ++ ']' :: rest) hx (headNotDigit_serItems xs rest)]
      cases xs with
      | nil => rfl
      | cons x2 xs2 =>
        have hU2 : (serVal x2 ++ serItems xs2).length + 1 < f := by
          rw [List.length_append, length_serItems_cons] at hlen
          have hp := serVal_length_pos x
          omega
        show (parseItemSeq f (serVal x2 ++ serItems xs2 ++ ']' :: rest)).map
            (fun (p : List JVal × List Char) => (x :: p.1, p.2)) = _
        rw [ihI x2 xs2 rest hU2]
        rfl

theorem jsonParse_serVal (v : JVal) : jsonParse (serVal v) = some v := by
  have h := (parse_ser_all ((serVal v).length + 1)).1 v [] (by omega) headNotDigit_nil
  rw [List.append_nil] at h
  rw [jsonParse, h]
  rfl

/-! ## C5: fence stripping and brace slicing of the wrapped response -/

theorem dropWhile_append_all {p : Char → Bool} :
    ∀ (A B : List Char), (∀ c ∈ A, p c = true) →
      (A ++ B).dropWhile p = B.dropWhile p := by
  intro A
  induction A with
  | nil => intro B _; rfl
  | cons a A ih =>
    intro B hA
    rw [List.cons_append, List.dropWhile_cons_of_pos (hA a (List.mem_cons_self _ _)),
      ih B (fun c hc => hA c (List.mem_cons_of_mem _ hc))]

theorem pyStripL_no_strip (l : List Char) (c : Char) (t : List Char)
    (d : Char) (B : List Char) (h1 : l = c :: t) (h2 : l = B ++ [d])
    (hc : pyIsSpace c = false) (hd : pyIsSpace d = false) :
    pyStripL l = l := by
  rw [pyStripL]
  conv_lhs => rw [h1]
  rw [List.dropWhile_cons_of_neg (by simp [hc]), ← h1]
  conv_lhs => rw [h2]
  rw [List.reverse_append, show ([d] : List Char).reverse = [d] from rfl,
    List.singleton_append, List.dropWhile_cons_of_neg (by simp [hd]),
    List.reverse_cons, List.reverse_reverse, ← h2]

theorem stripTrailFence_wrapper (Y B : List Char) (hY : Y = B ++ ['\x7d']) :
    stripTrailFence (Y ++ ['\n', '`', '`', '`']) = Y := by
  have h1 : (Y ++ ['\n', '`', '`', '`']).reverse = '`' :: '`' :: '`' :: '\n' :: Y.reverse := by
    rw [List.reverse_append]
    rfl
  have h2 : Y.reverse = '\x7d' :: B.reverse := by
    rw [hY, List.reverse_append]
    rfl
  simp only [stripTrailFence]
  rw [h1]
  rw [show List.dropWhile pyIsSpace ('`' :: '`' :: '`' :: '\n' :: Y.reverse) =
      '`' :: '`' :: '`' :: '\n' :: Y.reverse from
    List.dropWhile_cons_of_neg (by decide)]
  rw [if_pos (show startsWithL ('`' :: '`' :: '`' :: '\n' :: Y.reverse) ['`', '`', '`'] = true
    from rfl)]
  show ((List.dropWhile pyIsSpace ('\n' :: Y.reverse))).reverse = Y
  rw [List.dropWhile_cons_of_pos (by decide), h2,
    List.dropWhile_cons_of_neg (by decide), ← h2, List.reverse_reverse]

theorem braceSlice_prefix_obj (Pfx : List Char) (ms : List (String × JVal))
    (hP : ∀ c ∈ Pfx, c ≠ '\x7b') :
    braceSlice (Pfx ++ serVal (.jobj ms)) = some (serVal (.jobj ms)) := by
  obtain ⟨B, hB⟩ := serObj_last ms
  have ha : (Pfx ++ serVal (.jobj ms)).dropWhile (fun c => c ≠ '\x7b') =
      serVal (.jobj ms) := by
    rw [dropWhile_append_all _ _ (fun c hc => decide_eq_true (hP c hc))]
    cases ms with
    | nil => rfl
    | cons m ms2 => rfl
  have hb : ((serVal (.jobj ms)).reverse.dropWhile (fun c => c ≠ '\x7d')).reverse =
      serVal (.jobj ms) := by
    conv_lhs => rw [hB]
    rw [List.reverse_append, show (['\x7d'] : List Char).reverse = ['\x7d'] from rfl,
      List.singleton_append, List.dropWhile_cons_of_neg (by decide),
      List.reverse_cons, List.reverse_reverse, ← hB]
  have hne : (serVal (.jobj ms)).isEmpty = false := by
    cases h : serVal (.jobj ms) with
    | nil => exact absurd h (serVal_ne_nil _)
    | cons a b => rfl
  simp only [braceSlice]
  rw [ha, hb, if_neg (by simp [hne])]

/-- C5 (confirmed): wrapping the serialization of any JSON object in a
code fence with leading prose, exactly as in the spec's round-trip
property, and running `extract_json_from_text` on it reproduces the
object exactly (JSON numbers modelled as integers). -/
theorem extract_roundtrip (O : JVal) (hobj : isObj O = true) :
    extract_json_from_text ("Sure, here:\n```json\n" ++ serializeJson O ++ "\n```") =
      .ok O := by
  cases O with
  | jnull => simp [isObj] at hobj
  | jbool b => simp [isObj] at hobj
  | jnum n => simp [isObj] at hobj
  | jstr s => simp [isObj] at hobj
  | jarr xs => simp [isObj] at hobj
  | jobj ms =>
    obtain ⟨B, hB⟩ := serObj_last ms
    have hdata : ("Sure, here:\n```json\n" ++ serializeJson (.jobj ms) ++ "\n```").data =
        "Sure, here:\n```json\n".data ++ serVal (.jobj ms) ++ "\n```".data := by
      rw [String.data_append, String.data_append]
      rfl
    have hW : ("Sure, here:\n```json\n" ++ serializeJson (.jobj ms) ++ "\n```").data =
        'S' :: ("ure, here:\n```json\n".data ++
          (serVal (.jobj ms) ++ ['\n', '`', '`', '`'])) := by
      rw [hdata]
      rw [show ("Sure, here:\n```json\n" : String).data =
          'S' :: "ure, here:\n```json\n".data from rfl,
        show ("\n```" : String).data = ['\n', '`', '`', '`'] from rfl]
      simp [List.cons_append, List.append_assoc]
    have hWlast : ("Sure, here:\n```json\n" ++ serializeJson (.jobj ms) ++ "\n```").data =
        ("Sure, here:\n```json\n".data ++ serVal (.jobj ms) ++ ['\n', '`', '`']) ++ ['`'] := by
      rw [hdata, show ("\n```" : String).data = ['\n', '`', '`'] ++ ['`'] from rfl]
      simp [List.append_assoc]
    have h0 : pyStripL ("Sure, here:\n```json\n" ++ serializeJson (.jobj ms) ++ "\n```").data =
        ("Sure, here:\n```json\n" ++ serializeJson (.jobj ms) ++ "\n```").data :=
      pyStripL_no_strip _ 'S' _ '`' _ hW hWlast (by decide) (by decide)
    have h1 : stripLeadJson
        ("Sure, here:\n```json\n" ++ serializeJson (.jobj ms) ++ "\n```").data =
        ("Sure, here:\n```json\n" ++ serializeJson (.jobj ms) ++ "\n```").data := by
      conv_lhs => rw [hW]
      rw [hW]
      rfl
    have h2 : stripLeadFence
        ("Sure, here:\n```json\n" ++ serializeJson (.jobj ms) ++ "\n```").data =
        ("Sure, here:\n```json\n" ++ serializeJson (.jobj ms) ++ "\n```").data := by
      conv_lhs => rw [hW]
      rw [hW]
      rfl
    have h3 : stripTrailFence
        ("Sure, here:\n```json\n" ++ serializeJson (.jobj ms) ++ "\n```").data =
        "Sure, here:\n```json\n".data ++ serVal (.jobj ms) := by
      rw [hdata, show ("\n```" : String).data = ['\n', '`', '`', '`'] from rfl]
      exact stripTrailFence_wrapper _ ("Sure, here:\n```json\n".data ++ B)
        (by rw [hB, ← List.append_assoc])
    have hfp : fenceProcessed
        ("Sure, here:\n```json\n" ++ serializeJson (.jobj ms) ++ "\n```").data =
        "Sure, here:\n```json\n".data ++ serVal (.jobj ms) := by
      rw [fenceProcessed, h0, h1, h2, h3]
    have h4 : braceSlice ("Sure, here:\n```json\n".data ++ serVal (.jobj ms)) =
        some (serVal (.jobj ms)) :=
      braceSlice_prefix_obj _ _ (by decide)
    have h5 : jsonParse (serVal (.jobj ms)) = some (.jobj ms) := jsonParse_serVal _
    show extractJsonL ("Sure, here:\n```json\n" ++ serializeJson (.jobj ms) ++ "\n```").data =
      .ok (.jobj ms)
    rw [extractJsonL]
    simp only [hfp, h4, h5]

/-- Closed instance of C5 at a one-card object. -/
theorem extract_roundtrip_witness :
    extract_json_from_text
        ("Sure, here:\n```json\n" ++
          serializeJson (.jobj [("english", .jstr "Hi")]) ++ "\n```") =
      .ok (.jobj [("english", .jstr "Hi")]) :=
  extract_roundtrip _ rfl

end AnkiServer
